import Mathlib

/-!
Verification development for the jsxlate message pipeline
(src/jsx-translator.js).  The source operates on Immutable.js values
obtained from `I.fromJS(esprima.parse(src))`: nested string-keyed maps,
lists, strings, numbers, booleans and nulls.  We embed those values as
`Node` below and translate each function of the source file.  The external
collaborators (the esprima parser and the escodegen printer, which the
repository's spec declares out of scope) are modelled: the parser as an
explicit function parameter `String → Node`, the printer as `generate`
below.  Recursive tree functions are written with an explicit fuel
argument (`Node.sizeN` of the node at the entry points) so that they are
structurally recursive and computable by `decide`/`rfl`; fuel never runs
out for fuel ≥ sizeN of the argument, which the lemmas establish.
-/

namespace Jsxlate

/-- A key of an Immutable.js keypath: a map field name or a list index. -/
inductive Key where
  | fld : String → Key
  | idx : Nat → Key
deriving DecidableEq, Repr

abbrev Keypath := List Key

/-- An Immutable.js value as produced by `I.fromJS` on esprima output:
nested maps (insertion-ordered association lists), lists, and JSON leaves. -/
inductive Node where
  | obj  : List (String × Node) → Node
  | arr  : List Node → Node
  | str  : String → Node
  | num  : Int → Node
  | bool : Bool → Node
  | null : Node

namespace Node

/-- First-match lookup in an insertion-ordered field list (Immutable.Map.get). -/
def lookupField : List (String × Node) → String → Option Node
  | [], _ => none
  | (k, v) :: rest, s => if k = s then some v else lookupField rest s

/-- In-place update of the first occurrence of a field, appending when absent
(Immutable.Map.set keeps the position of an existing key). -/
def setField : List (String × Node) → String → Node → List (String × Node)
  | [], s, v => [(s, v)]
  | (k, w) :: rest, s, v => if k = s then (k, v) :: rest else (k, w) :: setField rest s v

/-- Immutable `get` for one key. -/
def get : Node → Key → Option Node
  | obj kvs, Key.fld s => lookupField kvs s
  | arr l, Key.idx i => l.get? i
  | _, _ => none

/-- Immutable `set` for one key.  On a map, sets the field; on a list,
replaces the element in range or appends at the end (`List.set(size)`
appends); on a leaf it is the identity (Immutable would throw; the
pipeline never does this on a valid keypath). -/
def set : Node → Key → Node → Node
  | obj kvs, Key.fld s, v => obj (setField kvs s v)
  | arr l, Key.idx i, v =>
      if i < l.length then arr (l.set i v)
      else if i = l.length then arr (l ++ [v])
      else arr l
  | n, _, _ => n

/-- Immutable `getIn`. -/
def getIn : Node → Keypath → Option Node
  | n, [] => some n
  | n, k :: rest =>
    match get n k with
    | some c => getIn c rest
    | none => none

/-- Immutable `setIn`: walks the keypath, creating an empty map for a
missing step (as Immutable's `updateIn` does). -/
def setIn : Node → Keypath → Node → Node
  | _, [], v => v
  | n, k :: rest, v =>
    let child := match get n k with
      | some c => c
      | none => obj []
    set n k (setIn child rest v)

/-
Computable size of a node, used as fuel for the recursive tree functions
below (the derived `sizeOf` has no executable code for this nested
inductive).
-/
mutual
def sizeN : Node → Nat
  | obj kvs => 1 + sizeFs kvs
  | arr l => 1 + sizeL l
  | str _ => 1
  | num _ => 1
  | bool _ => 1
  | null => 1
def sizeFs : List (String × Node) → Nat
  | [] => 0
  | (_, v) :: rest => 1 + sizeN v + sizeFs rest
def sizeL : List Node → Nat
  | [] => 0
  | x :: rest => 1 + sizeN x + sizeL rest
end

theorem sizeN_pos (n : Node) : 1 ≤ sizeN n := by
  cases n <;> simp [sizeN]

theorem sizeN_lt_of_mem_fields {k : String} {v : Node} {l : List (String × Node)}
    (h : (k, v) ∈ l) : sizeN v < sizeFs l := by
  induction l with
  | nil => cases h
  | cons a rest ih =>
    rcases List.mem_cons.mp h with h' | h'
    · cases h'; simp [sizeFs]; omega
    · have := ih h'
      obtain ⟨k', v'⟩ := a
      simp [sizeFs]; omega

theorem sizeN_lt_of_mem_list {v : Node} {l : List Node} (h : v ∈ l) :
    sizeN v < sizeL l := by
  induction l with
  | nil => cases h
  | cons a rest ih =>
    rcases List.mem_cons.mp h with rfl | h'
    · simp [sizeL]; omega
    · have := ih h'; simp [sizeL]; omega

theorem mem_of_lookupField {l : List (String × Node)} {s : String} {v : Node}
    (h : lookupField l s = some v) : (s, v) ∈ l := by
  induction l with
  | nil => simp [lookupField] at h
  | cons a rest ih =>
    obtain ⟨k, w⟩ := a
    by_cases hk : k = s
    · subst hk
      simp [lookupField] at h
      subst h
      exact List.mem_cons_self _ _
    · simp [lookupField, hk] at h
      exact List.mem_cons_of_mem _ (ih h)

theorem sizeN_lt_of_get {n c : Node} {k : Key} (h : get n k = some c) :
    sizeN c < sizeN n := by
  cases n <;> cases k <;> simp [get] at h
  case obj.fld kvs s =>
    have := sizeN_lt_of_mem_fields (mem_of_lookupField h)
    simp [sizeN]; omega
  case arr.idx l i =>
    have := sizeN_lt_of_mem_list (List.getElem?_mem h)
    simp [sizeN]; omega

/-- Pointwise comparison of two element lists with a given element test. -/
def beqListWith (f : Node → Node → Bool) : List Node → List Node → Bool
  | [], [] => true
  | a :: as, b :: bs => f a b && beqListWith f as bs
  | _, _ => false

/-- Pointwise comparison of two field lists with a given value test. -/
def beqFieldsWith (f : Node → Node → Bool) :
    List (String × Node) → List (String × Node) → Bool
  | [], [] => true
  | (k, v) :: as, (k', v') :: bs => k = k' && f v v' && beqFieldsWith f as bs
  | _, _ => false

/-- Fuel-bounded structural equality (Immutable's `I.is` deep equality). -/
def beqF : Nat → Node → Node → Bool
  | 0, _, _ => false
  | fuel + 1, n, m =>
    match n, m with
    | obj a, obj b => beqFieldsWith (beqF fuel) a b
    | arr a, arr b => beqListWith (beqF fuel) a b
    | str a, str b => a = b
    | num a, num b => a = b
    | bool a, bool b => a = b
    | null, null => true
    | _, _ => false

theorem beqFieldsWith_iff (fuel : Nat)
    (ih : ∀ n m : Node, sizeN n ≤ fuel → (beqF fuel n m = true ↔ n = m)) :
    ∀ a b : List (String × Node), sizeFs a ≤ fuel →
      (beqFieldsWith (beqF fuel) a b = true ↔ a = b) := by
  intro a
  induction a with
  | nil => intro b _; cases b <;> simp [beqFieldsWith]
  | cons x xs ihx =>
    intro b hs
    obtain ⟨k, v⟩ := x
    cases b with
    | nil => simp [beqFieldsWith]
    | cons y ys =>
      obtain ⟨k', v'⟩ := y
      have h1 : sizeN v ≤ fuel := by simp [sizeFs] at hs; omega
      have h2 : sizeFs xs ≤ fuel := by simp [sizeFs] at hs; omega
      simp [beqFieldsWith, ih v v' h1, ihx ys h2]

theorem beqListWith_iff (fuel : Nat)
    (ih : ∀ n m : Node, sizeN n ≤ fuel → (beqF fuel n m = true ↔ n = m)) :
    ∀ a b : List Node, sizeL a ≤ fuel →
      (beqListWith (beqF fuel) a b = true ↔ a = b) := by
  intro a
  induction a with
  | nil => intro b _; cases b <;> simp [beqListWith]
  | cons x xs ihx =>
    intro b hs
    cases b with
    | nil => simp [beqListWith]
    | cons y ys =>
      have h1 : sizeN x ≤ fuel := by simp [sizeL] at hs; omega
      have h2 : sizeL xs ≤ fuel := by simp [sizeL] at hs; omega
      simp [beqListWith, ih x y h1, ihx ys h2]

theorem beqF_iff : ∀ (fuel : Nat) (n m : Node), sizeN n ≤ fuel →
    (beqF fuel n m = true ↔ n = m) := by
  intro fuel
  induction fuel with
  | zero =>
    intro n m h
    have := sizeN_pos n
    omega
  | succ fuel ih =>
    intro n m h
    cases n <;> cases m <;> simp only [beqF]
    case obj.obj a b =>
      simp only [obj.injEq]
      exact beqFieldsWith_iff fuel ih a b (by simp [sizeN] at h; omega)
    case arr.arr a b =>
      simp only [arr.injEq]
      exact beqListWith_iff fuel ih a b (by simp [sizeN] at h; omega)
    all_goals simp

instance : DecidableEq Node := fun n m =>
  decidable_of_iff (beqF (sizeN n) n m = true) (beqF_iff (sizeN n) n m (Nat.le_refl _))

instance : BEq Node := instBEqOfDecidableEq

theorem lookupField_setField_self (l : List (String × Node)) (s : String) (v : Node) :
    lookupField (setField l s v) s = some v := by
  induction l with
  | nil => simp [setField, lookupField]
  | cons a rest ih =>
    obtain ⟨k, w⟩ := a
    by_cases hk : k = s <;> simp [setField, lookupField, hk, ih]

theorem lookupField_setField_ne (l : List (String × Node)) {s s' : String} (v : Node)
    (h : s ≠ s') : lookupField (setField l s v) s' = lookupField l s' := by
  induction l with
  | nil => simp [setField, lookupField, h]
  | cons a rest ih =>
    obtain ⟨k, w⟩ := a
    by_cases hk : k = s
    · subst hk; simp [setField, lookupField, h]
    · simp [setField, lookupField, hk, ih]

theorem setField_lookup_self {l : List (String × Node)} {s : String} {v : Node}
    (h : lookupField l s = some v) : setField l s v = l := by
  induction l with
  | nil => simp [lookupField] at h
  | cons a rest ih =>
    obtain ⟨k, w⟩ := a
    by_cases hk : k = s
    · subst hk
      simp [lookupField] at h
      simp [setField, h]
    · simp [lookupField, hk] at h
      simp [setField, hk, ih h]

theorem get_set_self {t : Node} {k : Key} {c : Node} (v : Node)
    (h : get t k = some c) : get (set t k v) k = some v := by
  cases t <;> cases k <;> simp [get] at h
  case obj.fld kvs s => simp [set, get, lookupField_setField_self]
  case arr.idx l i =>
    have hlt : i < l.length := by
      by_contra hge
      simp [List.getElem?_eq_none (Nat.le_of_not_lt hge)] at h
    simp [set, hlt, get, List.getElem?_set_self, hlt]

theorem get_set_ne {t : Node} {k k' : Key} (v : Node) (h : k ≠ k') :
    get (set t k v) k' = get t k' := by
  cases t with
  | obj kvs =>
    cases k with
    | fld s =>
      cases k' with
      | fld s' =>
        have hs : s ≠ s' := by intro hc; exact h (by rw [hc])
        simp [set, get, lookupField_setField_ne _ _ hs]
      | idx i => simp [set, get]
    | idx i => simp [set]
  | arr l =>
    cases k with
    | idx i =>
      cases k' with
      | fld s' => by_cases h1 : i < l.length <;> by_cases h2 : i = l.length <;>
          simp [set, get, h1, h2]
      | idx j =>
        have hij : i ≠ j := by intro hc; exact h (by rw [hc])
        by_cases h1 : i < l.length
        · simp [set, h1, get, List.getElem?_set_ne hij]
        · by_cases h2 : i = l.length
          · subst h2
            simp [set, h1, get]
            by_cases h3 : j < l.length
            · rw [List.getElem?_append_left h3]
            · have h4 : l.length < j ∨ l.length = j := by omega
              rcases h4 with h4 | h4
              · rw [List.getElem?_eq_none (by simp; omega),
                    List.getElem?_eq_none (by omega)]
              · omega
          · simp [set, h1, h2]
    | fld s => simp [set]
  | str s => simp [set]
  | num i => simp [set]
  | bool b => simp [set]
  | null => simp [set]

theorem list_set_self {l : List Node} {i : Nat} {c : Node} (h : l[i]? = some c) :
    l.set i c = l := by
  apply List.ext_getElem?
  intro j
  by_cases hj : i = j
  · subst hj
    have hlt : i < l.length := by
      by_contra hge
      simp [List.getElem?_eq_none (Nat.le_of_not_lt hge)] at h
    simp [List.getElem?_set_self, hlt, h.symm]
  · simp [List.getElem?_set_ne hj]

theorem set_get_self {t : Node} {k : Key} {c : Node} (h : get t k = some c) :
    set t k c = t := by
  cases t <;> cases k <;> simp [get] at h
  case obj.fld kvs s => simp [set, setField_lookup_self h]
  case arr.idx l i =>
    have hlt : i < l.length := by
      by_contra hge
      simp [List.getElem?_eq_none (Nat.le_of_not_lt hge)] at h
    simp [set, hlt, list_set_self h]

theorem getIn_append (p q : Keypath) : ∀ n : Node,
    getIn n (p ++ q) = (getIn n p).bind (fun m => getIn m q) := by
  induction p with
  | nil => intro n; simp [getIn]
  | cons k rest ih =>
    intro n
    simp only [List.cons_append, getIn]
    cases get n k with
    | none => simp
    | some c => simp [ih c]

theorem getIn_setIn_self : ∀ (p : Keypath) (t m v : Node),
    getIn t p = some m → getIn (setIn t p v) p = some v := by
  intro p
  induction p with
  | nil => intro t m v _; simp [getIn, setIn]
  | cons k rest ih =>
    intro t m v h
    simp only [getIn] at h
    cases hg : get t k with
    | none => rw [hg] at h; simp at h
    | some c =>
      rw [hg] at h
      simp only [setIn, hg, getIn]
      rw [get_set_self _ hg]
      exact ih c m v h

theorem setIn_self : ∀ (p : Keypath) (t v : Node),
    getIn t p = some v → setIn t p v = t := by
  intro p
  induction p with
  | nil =>
    intro t v h
    simp [getIn] at h
    simp [setIn, h]
  | cons k rest ih =>
    intro t v h
    simp only [getIn] at h
    cases hg : get t k with
    | none => rw [hg] at h; simp at h
    | some c =>
      rw [hg] at h
      simp only [setIn, hg]
      rw [ih c v h]
      exact set_get_self hg

theorem setIn_append : ∀ (p q : Keypath) (t m v : Node), getIn t p = some m →
    setIn t (p ++ q) v = setIn t p (setIn m q v) := by
  intro p
  induction p with
  | nil =>
    intro q t m v h
    simp [getIn] at h
    subst h
    simp [setIn]
  | cons k rest ih =>
    intro q t m v h
    simp only [getIn] at h
    cases hg : get t k with
    | none => rw [hg] at h; simp at h
    | some c =>
      rw [hg] at h
      simp only [List.cons_append, setIn, hg, List.append_eq]
      rw [ih q c m v h]

theorem getIn_setIn_divergent : ∀ (p q : Keypath) (t v : Node),
    ¬ p <+: q → ¬ q <+: p → getIn (setIn t p v) q = getIn t q := by
  intro p
  induction p with
  | nil => intro q t v hp _; exact absurd List.nil_prefix hp
  | cons a p' ih =>
    intro q t v hp hq
    cases q with
    | nil => exact absurd List.nil_prefix hq
    | cons b q' =>
      by_cases hab : a = b
      · subst hab
        have hp' : ¬ p' <+: q' := fun hc => hp (List.cons_prefix_cons.mpr ⟨rfl, hc⟩)
        have hq' : ¬ q' <+: p' := fun hc => hq (List.cons_prefix_cons.mpr ⟨rfl, hc⟩)
        cases hg : get t a with
        | some c =>
          simp only [setIn, hg, getIn]
          rw [get_set_self _ hg]
          exact ih q' c v hp' hq'
        | none =>
          have hq'ne : q' ≠ [] := by
            intro hc; subst hc
            exact hq (by simp [List.prefix_cons_iff])
          simp only [setIn, hg, getIn]
          -- the original tree has no child at `a`; the updated one may have a
          -- fresh empty-map child there, in which any non-empty path resolves
          -- to nothing
          cases hgs : get (set t a (setIn (obj []) p' v)) a with
          | none => rfl
          | some w =>
            have hw : w = setIn (obj []) p' v := by
              cases t with
              | obj kvs =>
                cases a with
                | fld s =>
                  simp only [set, get, lookupField_setField_self] at hgs
                  exact (Option.some.inj hgs).symm
                | idx i => simp [set, get] at hgs
              | arr l =>
                cases a with
                | fld s => simp [set, get] at hgs
                | idx i =>
                  simp only [get] at hg
                  have hge : ¬ i < l.length := by
                    intro hlt
                    rw [List.get?_eq_getElem?, List.getElem?_eq_getElem hlt] at hg
                    simp at hg
                  by_cases he : i = l.length
                  · subst he
                    simp only [set, if_neg hge, if_pos rfl, get] at hgs
                    simp at hgs
                    exact hgs.symm
                  · simp only [set, if_neg hge, if_neg he, get] at hgs
                    rw [hg] at hgs
                    exact absurd hgs (by simp)
              | str s => simp [set, get] at hgs
              | num i => simp [set, get] at hgs
              | bool b => simp [set, get] at hgs
              | null => simp [set, get] at hgs
            subst hw
            show ((obj []).setIn p' v).getIn q' = none
            rw [ih q' (obj []) v hp' hq']
            cases q' with
            | nil => exact absurd rfl hq'ne
            | cons b' q'' => cases b' <;> simp [getIn, get, lookupField]
      · -- heads differ: the update happens under a different child
        cases hg : get t a with
        | some c =>
          simp only [setIn, getIn]
          rw [get_set_ne _ hab]
        | none =>
          simp only [setIn, getIn]
          rw [get_set_ne _ hab]

/-- Convenience: `get` with a string field key. -/
def getF (n : Node) (s : String) : Option Node := get n (Key.fld s)

/-- Field access defaulting to `null` (JS `undefined` flowing onward). -/
def getD (n : Node) (s : String) : Node := (getF n s).getD null

/-- The `type` tag of an AST node, when present. -/
def typeOf (n : Node) : Option String :=
  match getF n "type" with
  | some (str t) => some t
  | _ => none

/-- JavaScript truthiness of an Immutable value. -/
def truthyNode : Node → Bool
  | null => false
  | bool b => b
  | str s => !(s == "")
  | num i => !(i == 0)
  | obj _ => true
  | arr _ => true

/-- The elements of a list-valued field, `[]` when absent or not a list. -/
def getList (n : Node) (s : String) : List Node :=
  match getF n s with
  | some (arr l) => l
  | _ => []

end Node

open Node

/-- An exception of the source program: either an `InputError` (an Immutable
map carrying `description` and, once annotated by the driver,
`messageAst` / `translationString` entries) or a plain JS `Error`
(carrying its stack trace). -/
inductive JsError where
  | inputError (description : String) (messageAst : Option Node)
      (translationStr : Option String)
  | jsError (stack : String)
deriving DecidableEq

/-- `InputError(description)` of the source: no context fields yet. -/
def InputError (description : String) : JsError := .inputError description none none

instance {e a : Type} [DecidableEq e] [DecidableEq a] : DecidableEq (Except e a) :=
  fun x y =>
    match x, y with
    | .ok u, .ok v => decidable_of_iff (u = v) (by simp)
    | .error u, .error v => decidable_of_iff (u = v) (by simp)
    | .ok _, .error _ => isFalse (by simp)
    | .error _, .ok _ => isFalse (by simp)

/-- `isInputError` of the source. -/
def isInputError : JsError → Bool
  | .inputError .. => true
  | .jsError _ => false

/-- `isStringMarker` (the `matcher` pattern at line 548 of the source). -/
def isStringMarker (n : Node) : Bool :=
  typeOf n == some "CallExpression"
  && typeOf (getD n "callee") == some "Identifier"
  && getF (getD n "callee") "name" == some (Node.str "i18n")

/-- `isElementMarker` (the `matcher` pattern at line 556 of the source). -/
def isElementMarker (n : Node) : Bool :=
  typeOf n == some "XJSElement"
  && typeOf (getD n "openingElement") == some "XJSOpeningElement"
  && getF (getD n "openingElement") "selfClosing" == some (Node.bool false)
  && typeOf (getD (getD n "openingElement") "name") == some "XJSIdentifier"
  && getF (getD (getD n "openingElement") "name") "name" == some (Node.str "I18N")

/-- `isMarker` of the source. -/
def isMarker (n : Node) : Bool := isStringMarker n || isElementMarker n

/-- `isStringLiteral` of the source (type `Literal` with a string value). -/
def isStringLiteral (n : Node) : Bool :=
  typeOf n == some "Literal"
  && (match getF n "value" with
      | some (Node.str _) => true
      | _ => false)

/-- `isJsxElement` of the source. -/
def isJsxElement (n : Node) : Bool := typeOf n == some "XJSElement"

/-- `isIdentifier` of the source. -/
def isIdentifier (n : Node) : Bool := typeOf n == some "Identifier"

/-- Fuel-bounded body of `isSimpleMemberExpression`: a non-computed member
expression whose object is an identifier or again such an expression and
whose property is an identifier. -/
def isSimpleMemberExpressionF : Nat → Node → Bool
  | 0, _ => false
  | fuel + 1, n =>
    typeOf n == some "MemberExpression"
    && getF n "computed" == some (Node.bool false)
    && (isIdentifier (getD n "object")
        || isSimpleMemberExpressionF fuel (getD n "object"))
    && isIdentifier (getD n "property")

/-- `isSimpleMemberExpression` of the source. -/
def isSimpleMemberExpression (n : Node) : Bool :=
  isSimpleMemberExpressionF (sizeN n) n

/-- `isNamedExpression` of the source. -/
def isNamedExpression (n : Node) : Bool :=
  isIdentifier n || isSimpleMemberExpression n

/-- String literal content for `Literal` nodes (single quotes, as escodegen
prints them; escaping of special characters is not modelled). -/
def litStr (n : Node) : String :=
  match getF n "value" with
  | some (Node.str s) => "\x27" ++ s ++ "\x27"
  | some (Node.num i) => toString i
  | some (Node.bool b) => cond b "true" "false"
  | _ => "Node.null"

/-- Modelled from the spec: the external source-code printer (`escodegen`,
an out-of-scope collaborator per the spec, section 6), restricted to the
node shapes the pipeline prints.  Fuel-bounded; `generate` below applies
it with sufficient fuel. -/
def generateF : Nat → Node → String
  | 0, _ => ""
  | fuel + 1, n =>
    match typeOf n with
    | some "Identifier" =>
      (match getF n "name" with | some (Node.str s) => s | _ => "")
    | some "XJSIdentifier" =>
      (match getF n "name" with | some (Node.str s) => s | _ => "")
    | some "MemberExpression" =>
      if getF n "computed" == some (Node.bool true) then
        generateF fuel (getD n "object") ++ "[" ++ generateF fuel (getD n "property") ++ "]"
      else
        generateF fuel (getD n "object") ++ "." ++ generateF fuel (getD n "property")
    | some "XJSMemberExpression" =>
      generateF fuel (getD n "object") ++ "." ++ generateF fuel (getD n "property")
    | some "XJSNamespacedName" =>
      generateF fuel (getD n "namespace") ++ ":" ++ generateF fuel (getD n "name")
    | some "Literal" => litStr n
    | some "CallExpression" =>
      generateF fuel (getD n "callee") ++ "("
        ++ String.intercalate ", " ((getList n "arguments").map (generateF fuel)) ++ ")"
    | some "XJSEmptyExpression" => ""
    | some "XJSExpressionContainer" =>
      "\x7b" ++ generateF fuel (getD n "expression") ++ "\x7d"
    | some "XJSAttribute" =>
      generateF fuel (getD n "name") ++ "=" ++ generateF fuel (getD n "value")
    | some "XJSElement" =>
      generateF fuel (getD n "openingElement")
        ++ String.join ((getList n "children").map (fun c =>
             if isStringLiteral c then
               (match getF c "value" with | some (Node.str s) => s | _ => "")
             else generateF fuel c))
        ++ (match getF n "closingElement" with
            | some c =>
              if typeOf c == some "XJSClosingElement" then generateF fuel c else ""
            | none => "")
    | some "XJSOpeningElement" =>
      "<" ++ generateF fuel (getD n "name")
        ++ String.join ((getList n "attributes").map (fun a => " " ++ generateF fuel a))
        ++ (if getF n "selfClosing" == some (Node.bool true) then " />" else ">")
    | some "XJSClosingElement" =>
      "</" ++ generateF fuel (getD n "name") ++ ">"
    | some "ExpressionStatement" => generateF fuel (getD n "expression") ++ ";"
    | some "Program" => String.join ((getList n "body").map (generateF fuel))
    | _ => ""

/-- `generate` of the source (via the modelled external printer). -/
def generate (n : Node) : String := generateF (sizeN n) n

/-- `generateOpening` of the source: print the opening element. -/
def generateOpening (n : Node) : String := generate (getD n "openingElement")

/-- Monadic filter evaluating the predicate left to right (Immutable
`filter` with a possibly-throwing predicate). -/
def filterME {α : Type} (p : α → Except JsError Bool) : List α → Except JsError (List α)
  | [] => .ok []
  | a :: rest => do
    let b ← p a
    let r ← filterME p rest
    pure (if b then a :: r else r)

/-- Monadic short-circuiting `some` (JS `Array.prototype.some`). -/
def anyME {α : Type} (p : α → Except JsError Bool) : List α → Except JsError Bool
  | [] => .ok false
  | a :: rest => do
    let b ← p a
    if b then pure true else anyME p rest

/-- Monadic map evaluating left to right. -/
def mapME {α β : Type} (f : α → Except JsError β) : List α → Except JsError (List β)
  | [] => .ok []
  | a :: rest => do
    let b ← f a
    let r ← mapME f rest
    pure (b :: r)

/-- `duplicatedValues` of the source: the values occurring at least twice,
each once, in order of their second occurrence (the `I.Set` the source
builds from them iterates in insertion order). -/
def duplicatedValues (l : List String) : List String :=
  (l.foldl
    (fun acc x =>
      if acc.1.contains x && !(acc.2.contains x) then (acc.1, acc.2 ++ [x])
      else (acc.1 ++ [x], acc.2))
    (([], []) : List String × List String)).2

/-- `allowedAttributesByComponentName` of the source. -/
def allowedAttributesByComponentName (cn : String) : List String :=
  if cn = "a" then ["href"] else []

/-- `attributeName` of the source: the attribute's `name.name` (the name
nodes produced by the parser are strings; other shapes never compare
equal to the pipeline's string names, hence `none`). -/
def attributeName (a : Node) : Option String :=
  match getIn a [Key.fld "name", Key.fld "name"] with
  | some (Node.str s) => some s
  | _ => none

/-- `attributeValue` of the source: the attribute's `value.value`. -/
def attributeValue (a : Node) : Option Node :=
  getIn a [Key.fld "value", Key.fld "value"]

/-- `attributes` of the source: the opening element's attribute list
(esprima elements always carry one; absent means not an element). -/
def attributes (n : Node) : List Node :=
  getList (getD n "openingElement") "attributes"

/-- The children list of an element (`ast.get('children')`; esprima
elements always carry one). -/
def childrenList (n : Node) : List Node := getList n "children"

/-- `attributeIsSafe` of the source: throws the internal error on a falsy
component name, otherwise allow-list membership of the attribute name. -/
def attributeIsSafe (cn : String) (a : Node) : Except JsError Bool :=
  if cn = "" then .error (.jsError "Error: Component name missing.")
  else
    .ok (match attributeName a with
         | some s => (allowedAttributesByComponentName cn).contains s
         | none => false)

/-- `attributeWithName` of the source: the `value.value` of the first
attribute so named. -/
def attributeWithName (n : Node) (nm : String) : Option Node :=
  match (attributes n).filter (fun a => attributeName a == some nm) with
  | [] => none
  | a :: _ => attributeValue a

/-- `updateAttributes` of the source specialised to writing a new list
(`updateIn(['openingElement','attributes'], f)`); left untouched when the
path is absent (unreachable for parser output). -/
def setAttributes (n : Node) (attrs : List Node) : Node :=
  match getIn n [Key.fld "openingElement", Key.fld "attributes"] with
  | some _ => setIn n [Key.fld "openingElement", Key.fld "attributes"] (Node.arr attrs)
  | none => n

/-- `removeAttributeWithName` of the source. -/
def removeAttributeWithName (n : Node) (nm : String) : Node :=
  setAttributes n ((attributes n).filter (fun a => !(attributeName a == some nm)))

/-- `componentNameAst` of the source: the name node, or its namespace part
for `<name:designation>`; other name shapes raise the internal error. -/
def componentNameAst (n : Node) : Except JsError Node :=
  match getIn n [Key.fld "openingElement", Key.fld "name"] with
  | none => .error (.jsError "TypeError: name of undefined")
  | some nameAst =>
    match typeOf nameAst with
    | some "XJSNamespacedName" =>
      match getF nameAst "namespace" with
      | some ns => .ok ns
      | none => .error (.jsError "TypeError: undefined namespace")
    | some "XJSIdentifier" => .ok nameAst
    | some "XJSMemberExpression" => .ok nameAst
    | _ => .error (.jsError "Error: Unknown component name type")

/-- `componentName` of the source. -/
def componentName (n : Node) : Except JsError String :=
  (componentNameAst n).map generate

/-- `componentDesignation` of the source: the printed `name` part of a
namespaced element name, else the value of the `i18n-designation`
attribute (a string for parser output; other value shapes are not
modelled and count as no designation). -/
def componentDesignation (n : Node) : Except JsError (Option String) :=
  match getIn n [Key.fld "openingElement", Key.fld "name"] with
  | none => .error (.jsError "TypeError: name of undefined")
  | some nameAst =>
    if typeOf nameAst == some "XJSNamespacedName" then
      match getF nameAst "name" with
      | some nm => .ok (some (generate nm))
      | none => .error (.jsError "TypeError: undefined name")
    else
      .ok (match attributeWithName n "i18n-designation" with
           | some (Node.str s) => some s
           | _ => none)

/-- `setJsxElementName` of the source: set the opening (and, unless
self-closing, the closing) element's name. -/
def setJsxElementName (n : Node) (nameAst : Node) : Node :=
  if truthyNode ((getIn n [Key.fld "openingElement", Key.fld "selfClosing"]).getD Node.null) then
    setIn n [Key.fld "openingElement", Key.fld "name"] nameAst
  else
    setIn (setIn n [Key.fld "openingElement", Key.fld "name"] nameAst)
      [Key.fld "closingElement", Key.fld "name"] nameAst

/-- `attributeMap` of the source: an insertion-ordered map from the raw
`name` nodes to the raw `value` nodes of the attributes (Immutable maps
of fewer than nine entries iterate in insertion order; `set` on an
existing key keeps its position). -/
def alistSet (m : List (Node × Node)) (k v : Node) : List (Node × Node) :=
  match m with
  | [] => [(k, v)]
  | (k', v') :: rest => if k' = k then (k', v) :: rest else (k', v') :: alistSet rest k v

def attributeMap (attrs : List Node) : List (Node × Node) :=
  attrs.foldl (fun m a => alistSet m (getD a "name") (getD a "value")) []

/-- Immutable `Map.merge`: entries of the right map win, new keys append. -/
def alistMerge (m1 m2 : List (Node × Node)) : List (Node × Node) :=
  m2.foldl (fun m kv => alistSet m kv.1 kv.2) m1

/-- Association-list lookup (Immutable `Map.get` for string-keyed pairs). -/
def alistGet (m : List (Node × Node)) (k : Node) : Option Node :=
  match m with
  | [] => none
  | (k', v) :: rest => if k' = k then some v else alistGet rest k

/-- `attributesFromMap` of the source: rebuild `XJSAttribute` nodes from a
name-to-value map. -/
def attributesFromMap (m : List (Node × Node)) : List Node :=
  m.map (fun kv =>
    Node.obj [("type", Node.str "XJSAttribute"), ("name", kv.1), ("value", kv.2)])

/-- `hasUnsafeAttributes` of the source. -/
def hasUnsafeAttributes (n : Node) : Except JsError Bool := do
  let name ← componentName n
  anyME (fun a => do pure (!(← attributeIsSafe name a))) (attributes n)

/-- `withSafeAttributesOnly` of the source. -/
def withSafeAttributesOnly (n : Node) : Except JsError Node := do
  let name ← componentName n
  let attrs ← filterME (fun a => attributeIsSafe name a) (attributes n)
  pure (setAttributes n attrs)

/-- `rewriteDesignationToNamespaceSyntax` of the source: when the element
carries a (truthy) `i18n-designation` attribute, move it into the
namespace form of the element name and drop the attribute. -/
def rewriteDesignationToNamespaceSyntax (n : Node) : Except JsError Node := do
  let name ← componentName n
  let designation ← componentDesignation n
  let attributeV := attributeWithName n "i18n-designation"
  match designation, attributeV with
  | some d, some av =>
    if d ≠ "" && truthyNode av then
      let namespacedName : Node := Node.obj
        [("type", Node.str "XJSNamespacedName"),
         ("name", Node.obj [("type", Node.str "XJSIdentifier"), ("name", Node.str d)]),
         ("namespace", Node.obj [("type", Node.str "XJSIdentifier"), ("name", Node.str name)])]
      let withNamespace := setJsxElementName n namespacedName
      pure (setAttributes withNamespace
        ((attributes withNamespace).filter
          (fun a => !(attributeName a == some "i18n-designation"))))
    else
      pure n
  | _, _ => pure n

/-- `removeDesignation` of the source: rename to the bare component name
and drop the `i18n-designation` attribute. -/
def removeDesignation (n : Node) : Except JsError Node := do
  let nAst ← componentNameAst n
  pure (removeAttributeWithName (setJsxElementName n nAst) "i18n-designation")

/-- `nameAndExpressionForNamedExpression` of the source. -/
def nameAndExpressionForNamedExpression (ast : Node) : String × Node :=
  (generate ast, ast)

/-- `namedExpressionDefinitionsInJsxExpressionContainer` of the source. -/
def namedExpressionDefinitionsInJsxExpressionContainer (ast : Node) :
    Except JsError (List (String × Node)) :=
  if isNamedExpression (getD ast "expression") then
    .ok [nameAndExpressionForNamedExpression (getD ast "expression")]
  else
    .ok []

/-- Body of `namedExpressionDefinitionsInJsxElement` of the source,
parameterised by the recursive call on children
(`_namedExpressionDefinitions`).  The component name is evaluated inside
the filter callback, exactly as in the source (so an element with no
attributes never evaluates it). -/
def namedExpressionDefinitionsInJsxElementCore
    (recur : Node → Except JsError (List (String × Node)))
    (ast : Node) : Except JsError (List (String × Node)) := do
  let hiddenAttributes ← filterME
    (fun attrib => do pure (!(← attributeIsSafe (← componentName ast) attrib)))
    (attributes ast)
  let attributeDefinition ←
    if hiddenAttributes.length = 0 then
      pure ([] : List (String × Node))
    else do
      let designation ← componentDesignation ast
      match designation with
      | some d =>
        if d = "" then
          .error (InputError ("Element needs a designation: " ++ generateOpening ast))
        else
          pure [(d, Node.arr hiddenAttributes)]
      | none => .error (InputError ("Element needs a designation: " ++ generateOpening ast))
  let childDefs ← mapME recur (childrenList ast)
  pure (attributeDefinition ++ childDefs.flatten)

/-- `_namedExpressionDefinitions` of the source, fuel-bounded. -/
def namedExpressionDefinitionsAuxF : Nat → Node → Except JsError (List (String × Node))
  | 0, _ => .error (.jsError "fuel exhausted")
  | fuel + 1, ast =>
    match typeOf ast with
    | some "XJSElement" =>
      namedExpressionDefinitionsInJsxElementCore (namedExpressionDefinitionsAuxF fuel) ast
    | some "XJSExpressionContainer" =>
      namedExpressionDefinitionsInJsxExpressionContainer ast
    | _ => .ok []

/-- `_namedExpressionDefinitions` of the source. -/
def namedExpressionDefinitionsAux (ast : Node) : Except JsError (List (String × Node)) :=
  namedExpressionDefinitionsAuxF (sizeN ast) ast

/-- `namedExpressionDefinitionsInJsxElement` of the source. -/
def namedExpressionDefinitionsInJsxElement (ast : Node) :
    Except JsError (List (String × Node)) :=
  namedExpressionDefinitionsInJsxElementCore namedExpressionDefinitionsAux ast

/-- `namedExpressionDefinitions` of the source: collect the (name, value)
pairs and fail when any name is duplicated, listing all duplicated names.
The source turns the pair list into an `I.Map`; we keep the (duplicate-free)
pair list and look it up with `defsGet`. -/
def namedExpressionDefinitions (ast : Node) : Except JsError (List (String × Node)) := do
  let listOfPairs ← namedExpressionDefinitionsAux ast
  let names := listOfPairs.map Prod.fst
  let dupes := duplicatedValues names
  if dupes.length ≠ 0 then
    .error (InputError ("Message has two named expressions with the same name: "
      ++ String.intercalate ", " dupes))
  else
    pure listOfPairs

/-- Lookup in a definitions map. -/
def defsGet (defs : List (String × Node)) (k : String) : Option Node :=
  match defs with
  | [] => none
  | (k', v) :: rest => if k' = k then some v else defsGet rest k

/-- `validateCallExpression` of the source. -/
def validateCallExpression (ast : Node) : Except JsError Unit :=
  if !(isStringMarker ast) then
    .error (.jsError ("Error: Internal error: tried to sanitize call expression: "
      ++ generate ast))
  else
    .ok ()

/-- `validateJsxExpressionContainer` of the source. -/
def validateJsxExpressionContainer (ast : Node) : Except JsError Unit :=
  if !(isNamedExpression (getD ast "expression")) then
    .error (InputError ("Message contains a non-named expression: " ++ generate ast))
  else
    .ok ()

/-- Body of `validateJsxElement` of the source, parameterised by the
recursive `validateMessage` on children.  `componentDesignation` is only
evaluated when the element has unsafe attributes (the source's
short-circuiting `&&`). -/
def validateJsxElementCore (recur : Node → Except JsError Node) (ast : Node) :
    Except JsError Unit := do
  let _ ← namedExpressionDefinitions ast
  let hu ← hasUnsafeAttributes ast
  let needsDesignation ←
    if hu then do
      let d ← componentDesignation ast
      pure (match d with
            | some s => s == ""
            | none => true)
    else
      pure false
  if needsDesignation then
    .error (InputError ("Element needs a designation: " ++ generateOpening ast))
  else do
    let _ ←
      if isElementMarker ast && (childrenList ast).any isElementMarker then
        (.error (InputError ("Don\x27t directly nest <I18N> tags: " ++ generate ast))
          : Except JsError Unit)
      else
        .ok ()
    let _ ← mapME recur (childrenList ast)
    pure ()

/-- `validateMessage` of the source, fuel-bounded: dispatch on the node
type, with identity as the default handler; returns the node. -/
def validateMessageF : Nat → Node → Except JsError Node
  | 0, _ => .error (.jsError "fuel exhausted")
  | fuel + 1, ast => do
    let _ ←
      match typeOf ast with
      | some "CallExpression" => validateCallExpression ast
      | some "XJSElement" => validateJsxElementCore (validateMessageF fuel) ast
      | some "XJSExpressionContainer" => validateJsxExpressionContainer ast
      | _ => .ok ()
    pure ast

/-- `validateMessage` of the source. -/
def validateMessage (ast : Node) : Except JsError Node :=
  validateMessageF (sizeN ast) ast

/-- `validateJsxElement` of the source. -/
def validateJsxElement (ast : Node) : Except JsError Unit :=
  validateJsxElementCore validateMessage ast

/-- `validateTranslation` of the source: throws if definitions are
duplicated, returns the translation. -/
def validateTranslation (translation : Node) (original : Node) : Except JsError Node := do
  let _ ← namedExpressionDefinitions translation
  pure translation

/-- `sanitizeJsxExpressionContainer` of the source: replace the expression
with `makeLiteralExpressionAst` of its printed name (`makeLiteralExpressionAst`
is `parseFragment` of the printed text, here the external-parser
parameter `pf`). -/
def sanitizeJsxExpressionContainer (pf : String → Node) (ast : Node) :
    Except JsError Node :=
  match getF ast "expression" with
  | none => .error (.jsError "TypeError: generate of undefined")
  | some e =>
    let p := nameAndExpressionForNamedExpression e
    .ok (set ast (Key.fld "expression") (pf p.1))

/-- Body of `sanitizeJsxElement` of the source, parameterised by the
recursive `sanitize` on children. -/
def sanitizeJsxElementCore (recur : Node → Except JsError Node) (ast : Node) :
    Except JsError Node := do
  let r1 ← rewriteDesignationToNamespaceSyntax ast
  let r2 ← withSafeAttributesOnly r1
  match getF r2 "children" with
  | some (Node.arr cs) => do
    let cs2 ← mapME recur cs
    pure (set r2 (Key.fld "children") (Node.arr cs2))
  | _ => pure r2

/-- `sanitize` of the source, fuel-bounded: dispatch with no default —
an unknown node type is a JS `TypeError` (undefined is not a function). -/
def sanitizeF (pf : String → Node) : Nat → Node → Except JsError Node
  | 0, _ => .error (.jsError "fuel exhausted")
  | fuel + 1, ast =>
    match typeOf ast with
    | some "Literal" => .ok ast
    | some "CallExpression" => .ok ast
    | some "XJSElement" => sanitizeJsxElementCore (sanitizeF pf fuel) ast
    | some "XJSExpressionContainer" => sanitizeJsxExpressionContainer pf ast
    | some "XJSEmptyExpression" => .ok ast
    | _ => .error (.jsError "TypeError: sanitize dispatch on unknown node type")

/-- `sanitize` of the source. -/
def sanitize (pf : String → Node) (ast : Node) : Except JsError Node :=
  sanitizeF pf (sizeN ast) ast

/-- `sanitizeJsxElement` of the source. -/
def sanitizeJsxElement (pf : String → Node) (ast : Node) : Except JsError Node :=
  sanitizeJsxElementCore (sanitize pf) ast

/-- `reconstituteJsxExpressionContainer` of the source. -/
def reconstituteJsxExpressionContainer (t : Node) (defs : List (String × Node)) :
    Except JsError Node :=
  let expr := getD t "expression"
  if !(isNamedExpression expr) then
    .error (InputError
      ("Translated message has JSX expression that isn\x27t a placeholder name: "
        ++ generate t))
  else
    match defsGet defs (generate expr) with
    | none => .error (InputError
        ("Translated message has a JSX expression whose name doesn\x27t exist in the original: "
          ++ generate t))
    | some definition => .ok (set t (Key.fld "expression") definition)

/-- Body of `reconstituteJsxElement` of the source, parameterised by the
recursive `_reconstitute` on children.  An element definition stores the
hidden attributes as a list node. -/
def reconstituteJsxElementCore (recur : Node → Except JsError Node)
    (t : Node) (defs : List (String × Node)) : Except JsError Node := do
  let hu ← hasUnsafeAttributes t
  if hu then
    .error (InputError ("Translation includes unsafe attribute: " ++ generateOpening t))
  else do
    let designation ← componentDesignation t
    let result ←
      match designation with
      | some d =>
        if d = "" then
          pure t
        else
          match defsGet defs d with
          | none => .error (InputError
              ("Translation contains designation \x27" ++ d
                ++ "\x27, which is not in the original."))
          | some originalAttributes =>
            let origList := match originalAttributes with
              | Node.arr l => l
              | _ => []
            let merged := attributesFromMap
              (alistMerge (attributeMap origList) (attributeMap (attributes t)))
            removeDesignation (setAttributes t merged)
      | none => pure t
    match getF result "children" with
    | some (Node.arr cs) => do
      let cs2 ← mapME recur cs
      pure (set result (Key.fld "children") (Node.arr cs2))
    | _ => pure result

/-- `_reconstitute` of the source, fuel-bounded: dispatch with no default. -/
def reconstituteAuxF : Nat → Node → List (String × Node) → Except JsError Node
  | 0, _, _ => .error (.jsError "fuel exhausted")
  | fuel + 1, t, defs =>
    match typeOf t with
    | some "Identifier" => .ok t
    | some "Literal" => .ok t
    | some "XJSElement" =>
      reconstituteJsxElementCore (fun c => reconstituteAuxF fuel c defs) t defs
    | some "XJSExpressionContainer" => reconstituteJsxExpressionContainer t defs
    | some "XJSEmptyExpression" => .ok t
    | _ => .error (.jsError "TypeError: reconstitute dispatch on unknown node type")

/-- `_reconstitute` of the source. -/
def reconstituteAux (t : Node) (defs : List (String × Node)) : Except JsError Node :=
  reconstituteAuxF (sizeN t) t defs

/-- `reconstituteJsxElement` of the source. -/
def reconstituteJsxElement (t : Node) (defs : List (String × Node)) :
    Except JsError Node :=
  reconstituteJsxElementCore (fun c => reconstituteAux c defs) t defs

/-- `reconstitute` of the source: rebuild the definitions map from the
original and transform the translated subtree. -/
def reconstitute (translatedAst originalAst : Node) : Except JsError Node := do
  let defs ← namedExpressionDefinitions originalAst
  reconstituteAux translatedAst defs

/-- The child entries of a node, in iteration order: map fields in
insertion order, list elements by ascending index (Immutable `forEach`). -/
def nodeEntries (n : Node) : List (Key × Node) :=
  match n with
  | Node.obj kvs => kvs.map (fun kv => (Key.fld kv.1, kv.2))
  | Node.arr l => l.enum.map (fun ia => (Key.idx ia.1, ia.2))
  | _ => []

/-- Collections are the nodes with a `forEach` (maps and lists). -/
def isCollection : Node → Bool
  | Node.obj _ => true
  | Node.arr _ => true
  | _ => false

/-- Body of the inner `f` of `allKeypathsInAst` of the source: push every
child's keypath, recursing into collection children. -/
def allKeypathsCore (recur : Node → Keypath → List Keypath)
    (node : Node) (keypath : Keypath) : List Keypath :=
  (nodeEntries node).flatMap (fun kc =>
    let childKeypath := keypath ++ [kc.1]
    childKeypath :: (if isCollection kc.2 then recur kc.2 childKeypath else []))

/-- `allKeypathsInAst`'s recursion, fuel-bounded. -/
def allKeypathsF : Nat → Node → Keypath → List Keypath
  | 0, _, _ => []
  | fuel + 1, node, keypath => allKeypathsCore (allKeypathsF fuel) node keypath

/-- `allKeypathsInAst` of the source. -/
def allKeypathsInAst (ast : Node) : List Keypath :=
  allKeypathsF (sizeN ast) ast []

/-- `keypathsForMessageNodesInAst` of the source: all keypaths of marker
nodes, in enumeration order, after validating every string marker's
argument list. -/
def keypathsForMessageNodesInAst (ast : Node) : Except JsError (List Keypath) := do
  let keypaths := (allKeypathsInAst ast).filter
    (fun keypath =>
      match getIn ast keypath with
      | some n => isMarker n
      | none => false)
  let _ ← mapME
    (fun keypath => do
      let messageMarker := (getIn ast keypath).getD Node.null
      if isStringMarker messageMarker then
        match getF messageMarker "arguments" with
        | some (Node.arr args) =>
          if args.length ≠ 1 then
            .error (InputError ("Message marker must have exactly one argument: "
              ++ generate messageMarker))
          else if !(isStringLiteral (args.headD Node.null)) then
            .error (InputError ("Message should be a string literal, but was instead: "
              ++ generate messageMarker))
          else
            pure ()
        | _ => .error (.jsError "TypeError: arguments of undefined")
      else
        pure ())
    keypaths
  pure keypaths

/-- `generateJsxChild` of the source: string-literal children print as
their raw value, everything else through the printer. -/
def generateJsxChild (ast : Node) : String :=
  if isStringLiteral ast then
    match getF ast "value" with
    | some (Node.str s) => s
    | _ => ""
  else
    generate ast

/-- `generateMessage` of the source: a string marker's key is its literal
argument value; an element marker's key is the concatenation of its
children's printed forms. -/
def generateMessage (ast : Node) : Except JsError String :=
  if isStringMarker ast then
    match getIn ast [Key.fld "arguments", Key.idx 0, Key.fld "value"] with
    | some (Node.str s) => .ok s
    | _ => .error (.jsError "TypeError: undefined message value")
  else if isElementMarker ast then
    .ok (String.join ((childrenList ast).map generateJsxChild))
  else
    .error (.jsError ("Error: Internal error: message is not string literal or JSX element: "
      ++ generate ast))

/-- `prepareTranslationForParsing` of the source: quote for a string
marker (JSON.stringify; escaping not modelled), wrap in marker tags for an
element marker; the unreachable else branch references an undefined
variable in the source (a ReferenceError). -/
def prepareTranslationForParsing (translationStr : String) (originalAst : Node) :
    Except JsError String :=
  if isStringMarker originalAst then
    .ok ("\"" ++ translationStr ++ "\"")
  else if isElementMarker originalAst then
    .ok ("<I18N>" ++ translationStr ++ "</I18N>")
  else
    .error (.jsError "ReferenceError: ast is not defined")

/-- The driver's catch-block annotation `e.set('messageAst', message)
.set('translationString', translation)`: only input errors have `set`. -/
def annotateErr (e : JsError) (m : Option Node) (t : Option String) : JsError :=
  match e with
  | .inputError d _ _ => .inputError d m t
  | .jsError s => .jsError s

/-- `extractMessages`' catch-block annotation (`messageAst` only). -/
def annotateMsg (e : JsError) (m : Node) : JsError :=
  match e with
  | .inputError d _ ts => .inputError d (some m) ts
  | .jsError s => .jsError s

/-- The inner `substitute` of `translateMessagesInAst`: fetch the message
at the keypath from the current tree, sanitize it to compute its key, look
the key up (a falsy entry, absent or empty, is a missing translation),
wrap and parse the translation (`pf` is the external `parseFragment`),
validate and reconstitute it, and write it back at the keypath.  Errors
are annotated with the message and the translation value the source's
`translation` variable holds at the throw site. -/
def substitute (pf : String → Node) (translations : String → Option String)
    (ast : Node) (keypath : Keypath) : Except JsError Node :=
  match getIn ast keypath with
  | none => .error (.jsError "TypeError: sanitize of undefined")
  | some message =>
    match (do generateMessage (← sanitize pf message) : Except JsError String) with
    | .error e => .error (annotateErr e (some message) none)
    | .ok key =>
      match translations key with
      | none => .error (annotateErr (InputError ("Translation missing for:\n" ++ key))
          (some message) none)
      | some translationStr =>
        if translationStr = "" then
          .error (annotateErr (InputError ("Translation missing for:\n" ++ key))
            (some message) (some translationStr))
        else
          match prepareTranslationForParsing translationStr message with
          | .error e => .error e
          | .ok wrapped =>
            match (do reconstitute (← validateTranslation (pf wrapped) message) message
                  : Except JsError Node) with
            | .error e => .error (annotateErr e (some message) (some wrapped))
            | .ok recon => .ok (setIn ast keypath recon)

/-- JS `Array.prototype.reduceRight` with a possibly-throwing reducer:
folds from the last element towards the first. -/
def reduceRightM (f : Node → Keypath → Except JsError Node) (init : Node) :
    List Keypath → Except JsError Node
  | [] => .ok init
  | kp :: rest => do
    let acc ← reduceRightM f init rest
    f acc kp

/-- `translateMessagesInAst` of the source: find the message keypaths and
substitute at each of them, last keypath first, threading the partially
rewritten tree. -/
def translateMessagesInAst (pf : String → Node) (ast : Node)
    (translations : String → Option String) : Except JsError Node := do
  let keypaths ← keypathsForMessageNodesInAst ast
  reduceRightM (substitute pf translations) ast keypaths

/-- `extractMessages` of the source (`parseP` is the external `parse`). -/
def extractMessages (parseP : String → Node) (pf : String → Node) (src : String) :
    Except JsError (List String) := do
  let ast := parseP src
  let kps ← keypathsForMessageNodesInAst ast
  mapME
    (fun keypath => do
      let message := (getIn ast keypath).getD Node.null
      match (do generateMessage (← sanitize pf (← validateMessage message))
            : Except JsError String) with
      | .error e => .error (annotateMsg e message)
      | .ok s => pure s)
    kps

/-- `translateMessages` of the source. -/
def translateMessages (parseP : String → Node) (pf : String → Node) (src : String)
    (translations : String → Option String) : Except JsError String := do
  let t ← translateMessagesInAst pf (parseP src) translations
  pure (generate t)

/-- The error's source line, `loc.start.line` (JS prints `undefined` into
the message when absent). -/
def lineOf (ast : Node) : String :=
  match getIn ast [Key.fld "loc", Key.fld "start", Key.fld "line"] with
  | some (Node.num i) => toString i
  | _ => "undefined"

/-- `errorMessageForError` of the source, with JS truthiness of the
`messageAst` and `translationString` entries deciding the shape. -/
def errorMessageForError (e : JsError) : String :=
  match e with
  | .jsError stack => stack
  | .inputError d ma ts =>
    match ma, ts with
    | some ast, some t =>
      if truthyNode ast && !(t == "") then
        "\nOn line " ++ lineOf ast ++ ", when processing the message... \n\n"
          ++ generate ast ++ "\n\n"
          ++ "...and its associated translation... \n\n"
          ++ t ++ "\n\n"
          ++ "...the following error occured: \n\n"
          ++ d ++ "\n"
      else if truthyNode ast then
        "\nOn line " ++ lineOf ast ++ ", when processing the message... \n\n"
          ++ generate ast ++ "\n\n"
          ++ "...the following error occured: \n\n"
          ++ d ++ "\n"
      else
        d ++ "\n"
    | some ast, none =>
      if truthyNode ast then
        "\nOn line " ++ lineOf ast ++ ", when processing the message... \n\n"
          ++ generate ast ++ "\n\n"
          ++ "...the following error occured: \n\n"
          ++ d ++ "\n"
      else
        d ++ "\n"
    | none, _ => d ++ "\n"

/-
Fixture builders: nodes of the shapes esprima-fb produces (used by the
concrete witnesses below).
-/

/-- An `Identifier` node. -/
def mkIdent (s : String) : Node :=
  Node.obj [("type", Node.str "Identifier"), ("name", Node.str s)]

/-- An `XJSIdentifier` node. -/
def mkXJSIdent (s : String) : Node :=
  Node.obj [("type", Node.str "XJSIdentifier"), ("name", Node.str s)]

/-- An `XJSNamespacedName` node (`<namespace:name>`). -/
def mkNSName (ns nm : String) : Node :=
  Node.obj [("type", Node.str "XJSNamespacedName"),
            ("name", mkXJSIdent nm), ("namespace", mkXJSIdent ns)]

/-- A string `Literal` node. -/
def mkLit (s : String) : Node :=
  Node.obj [("type", Node.str "Literal"), ("value", Node.str s)]

/-- An `XJSAttribute` node with a string-literal value. -/
def mkAttr (nm value : String) : Node :=
  Node.obj [("type", Node.str "XJSAttribute"),
            ("name", mkXJSIdent nm), ("value", mkLit value)]

/-- A non-self-closing `XJSElement` node. -/
def mkElem (nameNode : Node) (attrs : List Node) (children : List Node) : Node :=
  Node.obj [("type", Node.str "XJSElement"),
            ("openingElement", Node.obj
              [("type", Node.str "XJSOpeningElement"), ("name", nameNode),
               ("attributes", Node.arr attrs), ("selfClosing", Node.bool false)]),
            ("closingElement", Node.obj
              [("type", Node.str "XJSClosingElement"), ("name", nameNode)]),
            ("children", Node.arr children)]

/-- An element marker `<I18N>…</I18N>`. -/
def mkI18NElem (children : List Node) : Node :=
  mkElem (mkXJSIdent "I18N") [] children

/-- An `XJSExpressionContainer` node. -/
def mkContainer (e : Node) : Node :=
  Node.obj [("type", Node.str "XJSExpressionContainer"), ("expression", e)]

/-- A `CallExpression` with an identifier callee. -/
def mkCall (calleeName : String) (args : List Node) : Node :=
  Node.obj [("type", Node.str "CallExpression"),
            ("callee", mkIdent calleeName), ("arguments", Node.arr args)]

/-- A non-computed `MemberExpression`. -/
def mkMember (o p : Node) : Node :=
  Node.obj [("type", Node.str "MemberExpression"), ("computed", Node.bool false),
            ("object", o), ("property", p)]

/-- An `ExpressionStatement`. -/
def mkExprStmt (e : Node) : Node :=
  Node.obj [("type", Node.str "ExpressionStatement"), ("expression", e)]

/-- A `Program`. -/
def mkProgram (stmts : List Node) : Node :=
  Node.obj [("type", Node.str "Program"), ("body", Node.arr stmts)]

theorem count_snoc (y a : String) (q : List String) :
    (q ++ [a]).count y = q.count y + (if y = a then 1 else 0) := by
  by_cases hy : y = a <;> simp [List.count_append, hy]

theorem duplicatedValues_aux (l : List String) :
    ∀ (p seen dupes : List String),
      (∀ x, x ∈ seen ↔ 1 ≤ p.count x) →
      (∀ x, x ∈ dupes ↔ 2 ≤ p.count x) →
      ∀ x, x ∈ (l.foldl
        (fun acc y =>
          if acc.1.contains y && !(acc.2.contains y) then (acc.1, acc.2 ++ [y])
          else (acc.1 ++ [y], acc.2)) (seen, dupes)).2 ↔ 2 ≤ (p ++ l).count x := by
  induction l with
  | nil =>
    intro p seen dupes hs hd x
    simpa using hd x
  | cons a rest ih =>
    intro p seen dupes hs hd x
    simp only [List.foldl_cons]
    by_cases hmemS : a ∈ seen
    · by_cases hmemD : a ∈ dupes
      · rw [if_neg (by simp [hmemS, hmemD])]
        have h1 : ∀ y, y ∈ seen ++ [a] ↔ 1 ≤ (p ++ [a]).count y := by
          intro y
          rw [count_snoc]
          by_cases hy : y = a
          · rw [if_pos hy]
            exact iff_of_true (by rw [hy]; exact List.mem_append.mpr (Or.inr (by simp)))
              (by omega)
          · rw [if_neg hy]
            simp [hy, hs y]
        have h2 : ∀ y, y ∈ dupes ↔ 2 ≤ (p ++ [a]).count y := by
          intro y
          rw [count_snoc]
          by_cases hy : y = a
          · rw [if_pos hy]
            have := (hd a).mp hmemD
            exact iff_of_true (by rw [hy]; exact hmemD) (by rw [hy]; omega)
          · rw [if_neg hy]
            simp [hd y]
        have := ih (p ++ [a]) (seen ++ [a]) dupes h1 h2 x
        simpa [List.append_assoc] using this
      · rw [if_pos (by simp [hmemS, hmemD])]
        have h1 : ∀ y, y ∈ seen ↔ 1 ≤ (p ++ [a]).count y := by
          intro y
          rw [count_snoc]
          by_cases hy : y = a
          · rw [if_pos hy]
            have := (hs a).mp hmemS
            exact iff_of_true (by rw [hy]; exact hmemS) (by rw [hy]; omega)
          · rw [if_neg hy]
            simp [hs y]
        have h2 : ∀ y, y ∈ dupes ++ [a] ↔ 2 ≤ (p ++ [a]).count y := by
          intro y
          rw [count_snoc]
          by_cases hy : y = a
          · rw [if_pos hy]
            have ha1 : 1 ≤ p.count a := (hs a).mp hmemS
            exact iff_of_true (by rw [hy]; exact List.mem_append.mpr (Or.inr (by simp)))
              (by rw [hy]; omega)
          · rw [if_neg hy]
            simp [hy, hd y]
        have := ih (p ++ [a]) seen (dupes ++ [a]) h1 h2 x
        simpa [List.append_assoc] using this
    · rw [if_neg (by simp [hmemS])]
      have h0 : p.count a = 0 := by
        by_contra hnz
        exact hmemS ((hs a).mpr (by omega))
      have h1 : ∀ y, y ∈ seen ++ [a] ↔ 1 ≤ (p ++ [a]).count y := by
        intro y
        rw [count_snoc]
        by_cases hy : y = a
        · rw [if_pos hy]
          exact iff_of_true (by rw [hy]; exact List.mem_append.mpr (Or.inr (by simp)))
            (by omega)
        · rw [if_neg hy]
          simp [hy, hs y]
      have h2 : ∀ y, y ∈ dupes ↔ 2 ≤ (p ++ [a]).count y := by
        intro y
        rw [count_snoc]
        by_cases hy : y = a
        · rw [if_pos hy]
          have hnd : a ∉ dupes := fun hm => by
            have := (hd a).mp hm; omega
          exact iff_of_false (by rw [hy]; exact hnd) (by rw [hy]; omega)
        · rw [if_neg hy]
          simp [hd y]
      have := ih (p ++ [a]) (seen ++ [a]) dupes h1 h2 x
      simpa [List.append_assoc] using this

theorem duplicatedValues_spec (l : List String) (x : String) :
    x ∈ duplicatedValues l ↔ 2 ≤ l.count x := by
  have := duplicatedValues_aux l [] [] [] (by simp) (by simp) x
  simpa [duplicatedValues] using this

theorem validateMessage_elem_error (ast : Node) (e : JsError)
    (h1 : typeOf ast = some "XJSElement")
    (h2 : namedExpressionDefinitions ast = .error e) :
    validateMessage ast = .error e := by
  unfold validateMessage
  cases hsz : sizeN ast with
  | zero => have := sizeN_pos ast; omega
  | succ n =>
    simp [validateMessageF, h1, validateJsxElementCore, h2, bind, Except.bind]

/-- The demonstration message for duplicate names:
`<I18N><b>{x}</b> and {x}</I18N>` (the same placeholder at two different
nesting depths). -/
def demoC7 : Node :=
  mkI18NElem [mkElem (mkXJSIdent "b") [] [mkContainer (mkIdent "x")],
              mkLit " and ", mkContainer (mkIdent "x")]

/-- The pairs `demoC7`'s definition collector emits. -/
def demoC7pairs : List (String × Node) :=
  [("x", mkIdent "x"), ("x", mkIdent "x")]

/-- C7: if the definition collector of a message subtree emits the same
designation/placeholder name twice — at any nesting depth — then
collecting definitions raises an input error whose description lists all
duplicated names (exactly the names emitted at least twice), validation
of the message raises that error, and the extraction pipeline
(validate-then-sanitize-then-print) raises it before producing any
translator-facing text. -/
theorem C7_duplicateNames (pf : String → Node) (ast : Node)
    (pairs : List (String × Node))
    (h1 : typeOf ast = some "XJSElement")
    (h2 : namedExpressionDefinitionsAux ast = .ok pairs)
    (h3 : duplicatedValues (pairs.map Prod.fst) ≠ []) :
    (namedExpressionDefinitions ast = .error (InputError
        ("Message has two named expressions with the same name: "
          ++ String.intercalate ", " (duplicatedValues (pairs.map Prod.fst))))) ∧
    (validateMessage ast = .error (InputError
        ("Message has two named expressions with the same name: "
          ++ String.intercalate ", " (duplicatedValues (pairs.map Prod.fst))))) ∧
    (∀ nm, nm ∈ duplicatedValues (pairs.map Prod.fst) ↔
        2 ≤ (pairs.map Prod.fst).count nm) ∧
    ((do generateMessage (← sanitize pf (← validateMessage ast))
        : Except JsError String) = .error (InputError
        ("Message has two named expressions with the same name: "
          ++ String.intercalate ", " (duplicatedValues (pairs.map Prod.fst))))) := by
  have hlen : (duplicatedValues (pairs.map Prod.fst)).length ≠ 0 := by
    intro hc
    exact h3 (List.length_eq_zero.mp hc)
  have hdefs : namedExpressionDefinitions ast = .error (InputError
      ("Message has two named expressions with the same name: "
        ++ String.intercalate ", " (duplicatedValues (pairs.map Prod.fst)))) := by
    simp [namedExpressionDefinitions, h2, hlen, bind, Except.bind]
  have hval := validateMessage_elem_error ast _ h1 hdefs
  refine ⟨hdefs, hval, fun nm => duplicatedValues_spec _ nm, ?_⟩
  simp [hval, bind, Except.bind]

theorem C7_duplicateNames_witness :
    validateMessage demoC7 = .error (InputError
      "Message has two named expressions with the same name: x") :=
  (C7_duplicateNames (fun _ => Node.null) demoC7 demoC7pairs (by decide) (by decide)
    (by decide)).2.1

/-- The scenario-A string marker `i18n("Hello, world!")` and its program. -/
def helloCall : Node := mkCall "i18n" [mkLit "Hello, world!"]

def helloProgram : Node := mkProgram [mkExprStmt helloCall]

/-- A small truthy message node for the error-rendering witnesses. -/
def demoC10ast : Node := mkLit "m"

/-- C10 (amended): `errorMessageForError` renders an input error carrying a
message subtree and a nonempty raw translation string with line number,
printed message and the translation text; one carrying a message subtree
and no translation string with line number and printed message but no
translation section; one carrying neither as its description alone; and a
non-input error as its stack trace.  (An input error carrying the empty
translation string falls into the second shape — see the counterexample.) -/
theorem C10_errorMessage :
    (∀ d ast t, truthyNode ast = true → t ≠ "" →
      errorMessageForError (.inputError d (some ast) (some t)) =
        "\nOn line " ++ lineOf ast ++ ", when processing the message... \n\n"
          ++ generate ast ++ "\n\n"
          ++ "...and its associated translation... \n\n"
          ++ t ++ "\n\n"
          ++ "...the following error occured: \n\n" ++ d ++ "\n") ∧
    (∀ d ast, truthyNode ast = true →
      errorMessageForError (.inputError d (some ast) none) =
        "\nOn line " ++ lineOf ast ++ ", when processing the message... \n\n"
          ++ generate ast ++ "\n\n"
          ++ "...the following error occured: \n\n" ++ d ++ "\n") ∧
    (∀ d, errorMessageForError (.inputError d none none) = d ++ "\n") ∧
    (∀ s, errorMessageForError (.jsError s) = s) := by
  refine ⟨?_, ?_, ?_, ?_⟩
  · intro d ast t h1 h2
    simp [errorMessageForError, h1, h2]
  · intro d ast h1
    simp [errorMessageForError, h1]
  · intro d
    simp [errorMessageForError]
  · intro s
    simp [errorMessageForError]

theorem C10_errorMessage_witness :
    truthyNode demoC10ast = true ∧ ("T" : String) ≠ "" ∧
    errorMessageForError (.inputError "boom" (some demoC10ast) (some "T")) =
      "\nOn line undefined, when processing the message... \n\n\x27m\x27\n\n...and its associated translation... \n\nT\n\n...the following error occured: \n\nboom\n" := by
  refine ⟨by decide, by decide, ?_⟩
  rw [C10_errorMessage.1 "boom" demoC10ast "T" (by decide) (by decide)]
  decide

/-- C10 counterexample: an input error carrying both a message subtree and
a raw translation string — the empty one — does NOT render with the
translation text: it renders exactly like the error carrying no
translation string at all, without the translation section. -/
theorem C10_counterexample :
    errorMessageForError (.inputError "boom" (some demoC10ast) (some "")) =
      errorMessageForError (.inputError "boom" (some demoC10ast) none) ∧
    errorMessageForError (.inputError "boom" (some demoC10ast) (some "")) =
      "\nOn line undefined, when processing the message... \n\n\x27m\x27\n\n...the following error occured: \n\nboom\n" := by
  constructor <;> decide

/-- C6: during reconstitution, a translated element whose designation is
absent from the definitions raises an input error naming that designation;
a translated expression container whose (named) expression's printed name
is absent raises an input error; and when the placeholder name is present
the expression is replaced by the stored original expression subtree
verbatim. -/
theorem C6_reconstituteLookups :
    (∀ t defs d, hasUnsafeAttributes t = .ok false →
      componentDesignation t = .ok (some d) → d ≠ "" → defsGet defs d = none →
      reconstituteJsxElement t defs = .error (InputError
        ("Translation contains designation \x27" ++ d
          ++ "\x27, which is not in the original."))) ∧
    (∀ t defs, isNamedExpression (getD t "expression") = true →
      defsGet defs (generate (getD t "expression")) = none →
      reconstituteJsxExpressionContainer t defs = .error (InputError
        ("Translated message has a JSX expression whose name doesn\x27t exist in the original: "
          ++ generate t))) ∧
    (∀ t defs definition, isNamedExpression (getD t "expression") = true →
      defsGet defs (generate (getD t "expression")) = some definition →
      reconstituteJsxExpressionContainer t defs =
        .ok (Node.set t (Key.fld "expression") definition)) := by
  refine ⟨?_, ?_, ?_⟩
  · intro t defs d h1 h2 h3 h4
    simp [reconstituteJsxElement, reconstituteJsxElementCore, h1, h2, h3, h4,
      bind, Except.bind]
  · intro t defs h1 h2
    simp [reconstituteJsxExpressionContainer, h1, h2]
  · intro t defs definition h1 h2
    simp [reconstituteJsxExpressionContainer, h1, h2]

theorem C6_reconstituteLookups_witness :
    reconstituteJsxElement (mkElem (mkNSName "a" "zap") [] []) [] =
      .error (InputError
        "Translation contains designation \x27zap\x27, which is not in the original.") ∧
    reconstituteJsxExpressionContainer (mkContainer (mkIdent "x")) [("x", mkIdent "y")] =
      .ok (Node.set (mkContainer (mkIdent "x")) (Key.fld "expression") (mkIdent "y")) :=
  ⟨C6_reconstituteLookups.1 (mkElem (mkNSName "a" "zap") [] []) [] "zap"
      (by decide) (by decide) (by decide) (by decide),
   C6_reconstituteLookups.2.2 (mkContainer (mkIdent "x")) [("x", mkIdent "y")]
      (mkIdent "y") (by decide) (by decide)⟩

theorem stringMarker_of_elementMarker_false {n : Node}
    (h : isElementMarker n = true) : isStringMarker n = false := by
  simp [isElementMarker] at h
  simp [isStringMarker, h.1]

/-- C9: the canonical key of a string marker is the literal string value of
its single argument, unquoted; the key of an element marker is the
concatenation, in child order, of each child's printed form, where
string-literal children print as their raw value and all other children
print through the printer; and `extractMessages` on
`i18n("Hello, world!")` yields `["Hello, world!"]`. -/
theorem C9_generateMessage :
    (∀ ast s, isStringMarker ast = true →
      Node.getIn ast [Key.fld "arguments", Key.idx 0, Key.fld "value"] =
        some (Node.str s) →
      generateMessage ast = .ok s) ∧
    (∀ ast, isElementMarker ast = true →
      generateMessage ast = .ok (String.join ((childrenList ast).map generateJsxChild))) ∧
    (∀ c s, isStringLiteral c = true → getF c "value" = some (Node.str s) →
      generateJsxChild c = s) ∧
    (∀ c, isStringLiteral c = false → generateJsxChild c = generate c) ∧
    (extractMessages (fun _ => helloProgram) (fun _ => Node.null)
      "i18n(\"Hello, world!\")" = .ok ["Hello, world!"]) := by
  refine ⟨?_, ?_, ?_, ?_, by decide⟩
  · intro ast s h1 h2
    simp [generateMessage, h1, h2]
  · intro ast h1
    simp [generateMessage, stringMarker_of_elementMarker_false h1, h1]
  · intro c s h1 h2
    simp [generateJsxChild, h1, h2]
  · intro c h1
    simp [generateJsxChild, h1]

theorem C9_generateMessage_witness :
    isStringMarker helloCall = true ∧
    generateMessage helloCall = .ok "Hello, world!" ∧
    isElementMarker demoC7 = true ∧
    generateMessage demoC7 =
      .ok (String.join ((childrenList demoC7).map generateJsxChild)) :=
  ⟨by decide,
   C9_generateMessage.1 helloCall "Hello, world!" (by decide) (by decide),
   by decide,
   C9_generateMessage.2.1 demoC7 (by decide)⟩

theorem reduceRightM_last_error (f : Node → Keypath → Except JsError Node)
    (init : Node) (l : List Keypath) (k : Keypath) (e : JsError)
    (h : f init k = .error e) :
    reduceRightM f init (l ++ [k]) = .error e := by
  induction l with
  | nil => simp [reduceRightM, h, bind, Except.bind]
  | cons x rest ih => simp [reduceRightM, ih, bind, Except.bind]

/-- C5: on a document whose message-keypath list ends with keypath `k` (in
particular any document with at least one message), when the translations
table lacks the canonical key of `k`'s message, the whole-document driver
raises an input error — not a silent skip — whose description is
`"Translation missing for:\n"` followed by that exact canonical key. -/
theorem C5_missingTranslation (pf : String → Node) (tr : String → Option String)
    (ast msg smsg : Node) (kps l : List Keypath) (k : Keypath) (key : String)
    (h1 : keypathsForMessageNodesInAst ast = .ok kps)
    (h2 : kps = l ++ [k])
    (h4 : Node.getIn ast k = some msg)
    (h5 : sanitize pf msg = .ok smsg)
    (h6 : generateMessage smsg = .ok key)
    (h7 : tr key = none) :
    translateMessagesInAst pf ast tr =
      .error (.inputError ("Translation missing for:\n" ++ key) (some msg) none) := by
  have hsub : substitute pf tr ast k =
      .error (.inputError ("Translation missing for:\n" ++ key) (some msg) none) := by
    simp [substitute, h4, h5, h6, h7, bind, Except.bind, annotateErr, InputError]
  rw [translateMessagesInAst]
  simp [h1, h2, bind, Except.bind]
  exact reduceRightM_last_error _ _ l k _ hsub

theorem C5_missingTranslation_witness :
    keypathsForMessageNodesInAst helloProgram =
      .ok [[Key.fld "body", Key.idx 0, Key.fld "expression"]] ∧
    translateMessagesInAst (fun _ => Node.null) helloProgram (fun _ => none) =
      .error (.inputError ("Translation missing for:\nHello, world!")
        (some helloCall) none) :=
  ⟨by decide,
   C5_missingTranslation (fun _ => Node.null) (fun _ => none) helloProgram helloCall
     helloCall [[Key.fld "body", Key.idx 0, Key.fld "expression"]] []
     [Key.fld "body", Key.idx 0, Key.fld "expression"] "Hello, world!"
     (by decide) (by decide) (by decide) (by decide) (by decide) (by decide)⟩

/-- The non-named-expression message `<I18N>{foo()}</I18N>`, its document,
the parser stub (parsing the printed expression text and the wrapped
translation back to their ASTs), and a translations table carrying its
key. -/
def fooCall : Node := mkCall "foo" []

def msgC4 : Node := mkI18NElem [mkContainer fooCall]

def docC4 : Node := mkProgram [mkExprStmt msgC4]

def pf4 : String → Node := fun s =>
  if s = "foo()" then fooCall
  else if s = "<I18N>\x7bfoo()\x7d</I18N>" then msgC4
  else Node.null

def tr4 : String → Option String := fun k =>
  if k = "\x7bfoo()\x7d" then some "\x7bfoo()\x7d" else none

/-- C4 (code bug): on the message `<I18N>{foo()}</I18N>`, whose inner
expression is not a named expression, `validateMessage` raises the input
error "Message contains a non-named expression" — but the translation
driver never validates: `sanitize` passes the message through without any
error (replacing the expression with the re-parse of its printed text),
and the whole driver run raises a different, later error (from
reconstitution of the translation) instead of the claimed validation
error. -/
theorem C4_driverSkipsValidation :
    (validateMessage msgC4 = .error (InputError
      "Message contains a non-named expression: \x7bfoo()\x7d")) ∧
    (sanitize pf4 msgC4 = .ok msgC4) ∧
    (sanitizeJsxExpressionContainer pf4 (mkContainer fooCall) =
      .ok (Node.set (mkContainer fooCall) (Key.fld "expression") (pf4 (generate fooCall)))) ∧
    (translateMessagesInAst pf4 docC4 tr4 = .error (.inputError
      "Translated message has JSX expression that isn\x27t a placeholder name: \x7bfoo()\x7d"
      (some msgC4) (some "<I18N>\x7bfoo()\x7d</I18N>"))) := by
  refine ⟨by decide, by decide, by decide, by decide⟩

/-- Boolean key-uniqueness of a field list. -/
def nodupKeys : List (String × Node) → Bool
  | [] => true
  | (k, _) :: rest => !((rest.map Prod.fst).contains k) && nodupKeys rest

/-- Well-formedness of a tree, fuel-bounded: every map in it has pairwise
distinct keys (parser output is JSON-shaped, so this always holds). -/
def wfF : Nat → Node → Bool
  | 0, _ => false
  | fuel + 1, n =>
    match n with
    | Node.obj kvs => nodupKeys kvs && kvs.all (fun kv => wfF fuel kv.2)
    | Node.arr l => l.all (wfF fuel)
    | _ => true

/-- Well-formedness of a tree. -/
def wfNode (n : Node) : Bool := wfF (sizeN n) n

theorem nodeEntries_sizeN {n c : Node} {k : Key} (h : (k, c) ∈ nodeEntries n) :
    sizeN c < sizeN n := by
  cases n with
  | obj kvs =>
    simp [nodeEntries] at h
    obtain ⟨k', hk⟩ := h
    have := sizeN_lt_of_mem_fields hk.1
    simp [sizeN]; omega
  | arr l =>
    simp [nodeEntries] at h
    obtain ⟨i, hi⟩ := h
    have hg : l[i]? = some c := List.mk_mem_enum_iff_getElem?.mp hi.1
    have hmem : c ∈ l := List.getElem?_mem hg
    have := sizeN_lt_of_mem_list hmem
    simp [sizeN]; omega
  | str s => simp [nodeEntries] at h
  | num i => simp [nodeEntries] at h
  | bool b => simp [nodeEntries] at h
  | null => simp [nodeEntries] at h

theorem flatMapCongr {α β : Type} {l : List α} {f g : α → List β}
    (h : ∀ a ∈ l, f a = g a) : l.flatMap f = l.flatMap g := by
  induction l with
  | nil => rfl
  | cons x xs ih =>
    simp only [List.flatMap_cons]
    rw [h x (List.mem_cons_self _ _), ih (fun a ha => h a (List.mem_cons_of_mem _ ha))]

theorem allCongr {α : Type} {l : List α} {f g : α → Bool}
    (h : ∀ a ∈ l, f a = g a) : l.all f = l.all g := by
  induction l with
  | nil => rfl
  | cons x xs ih =>
    simp only [List.all_cons]
    rw [h x (List.mem_cons_self _ _), ih (fun a ha => h a (List.mem_cons_of_mem _ ha))]

theorem entries_get {n c : Node} {k : Key} (h : Node.get n k = some c) :
    (k, c) ∈ nodeEntries n := by
  cases n <;> cases k <;> simp [Node.get] at h
  case obj.fld kvs s =>
    simp [nodeEntries]
    exact mem_of_lookupField h
  case arr.idx l i =>
    simp [nodeEntries]
    exact List.mk_mem_enum_iff_getElem?.mpr h

theorem lookupField_of_nodup {kvs : List (String × Node)} {s : String} {c : Node}
    (hnd : nodupKeys kvs = true) (h : (s, c) ∈ kvs) : lookupField kvs s = some c := by
  induction kvs with
  | nil => cases h
  | cons a rest ih =>
    obtain ⟨k, w⟩ := a
    simp [nodupKeys] at hnd
    rcases List.mem_cons.mp h with h' | h'
    · rw [Prod.mk.injEq] at h'
      obtain ⟨h1, h2⟩ := h'
      subst h1; subst h2
      simp [lookupField]
    · have hk : k ≠ s := by
        intro hc
        apply hnd.1
        rw [hc]
        exact h'
      simp [lookupField, hk]
      exact ih hnd.2 h'

/-- The field list of a node when it is a map, else `[]`. -/
def objFields : Node → List (String × Node)
  | Node.obj kvs => kvs
  | _ => []

theorem entries_get_wf {n c : Node} {k : Key}
    (hwf : nodupKeys (objFields n) = true)
    (h : (k, c) ∈ nodeEntries n) : Node.get n k = some c := by
  cases n with
  | obj kvs =>
    simp [nodeEntries] at h
    obtain ⟨s, hm, rfl⟩ := h
    simp [Node.get]
    exact lookupField_of_nodup (by simpa [objFields] using hwf) hm
  | arr l =>
    simp [nodeEntries] at h
    obtain ⟨i, hm, rfl⟩ := h
    simp [Node.get]
    exact List.mk_mem_enum_iff_getElem?.mp hm
  | str s => simp [nodeEntries] at h
  | num i => simp [nodeEntries] at h
  | bool b => simp [nodeEntries] at h
  | null => simp [nodeEntries] at h

theorem wfF_irrel : ∀ (f1 : Nat), ∀ (f2 : Nat) (n : Node), sizeN n ≤ f1 → sizeN n ≤ f2 →
    wfF f1 n = wfF f2 n := by
  intro f1
  induction f1 with
  | zero => intro f2 n h1 _; have := sizeN_pos n; omega
  | succ f ih =>
    intro f2 n h1 h2
    cases f2 with
    | zero => have := sizeN_pos n; omega
    | succ g =>
      cases n with
      | obj kvs =>
        simp only [wfF]
        congr 1
        apply allCongr
        intro kv hm
        obtain ⟨k, v⟩ := kv
        have hsz : sizeN v < sizeN (Node.obj kvs) := by
          have := sizeN_lt_of_mem_fields hm
          simp [sizeN]; omega
        simp only [sizeN] at h1 h2
        exact ih g v (by have := sizeN_lt_of_mem_fields hm; omega)
          (by have := sizeN_lt_of_mem_fields hm; omega)
      | arr l =>
        simp only [wfF]
        apply allCongr
        intro v hm
        exact ih g v (by have := sizeN_lt_of_mem_list hm; simp [sizeN] at h1; omega)
          (by have := sizeN_lt_of_mem_list hm; simp [sizeN] at h2; omega)
      | str s => simp [wfF]
      | num i => simp [wfF]
      | bool b => simp [wfF]
      | null => simp [wfF]

theorem wf_child {n c : Node} {k : Key} (hwf : wfNode n = true)
    (h : (k, c) ∈ nodeEntries n) : wfNode c = true := by
  have hsz := nodeEntries_sizeN h
  unfold wfNode at hwf
  cases hfz : sizeN n with
  | zero => have := sizeN_pos n; omega
  | succ m =>
    rw [hfz] at hwf
    cases n with
    | obj kvs =>
      simp only [wfF] at hwf
      have hall := (Bool.and_elim_right (by exact hwf))
      simp [nodeEntries] at h
      obtain ⟨s, hm, rfl⟩ := h
      have := (List.all_eq_true.mp hall) (s, c) hm
      unfold wfNode
      rw [wfF_irrel (sizeN c) m c (Nat.le_refl _) (by simp [sizeN] at hfz; have := sizeN_lt_of_mem_fields hm; omega)]
      exact this
    | arr l =>
      simp only [wfF] at hwf
      simp [nodeEntries] at h
      obtain ⟨i, hm, rfl⟩ := h
      have hmem : c ∈ l := List.getElem?_mem (List.mk_mem_enum_iff_getElem?.mp hm)
      have := (List.all_eq_true.mp hwf) c hmem
      unfold wfNode
      rw [wfF_irrel (sizeN c) m c (Nat.le_refl _) (by simp [sizeN] at hfz; have := sizeN_lt_of_mem_list hmem; omega)]
      exact this
    | str s => simp [nodeEntries] at h
    | num i => simp [nodeEntries] at h
    | bool b => simp [nodeEntries] at h
    | null => simp [nodeEntries] at h

theorem wf_keys {n : Node} (hwf : wfNode n = true) : nodupKeys (objFields n) = true := by
  unfold wfNode at hwf
  cases hfz : sizeN n with
  | zero => have := sizeN_pos n; omega
  | succ m =>
    rw [hfz] at hwf
    cases n with
    | obj kvs =>
      simp only [wfF] at hwf
      simpa [objFields] using (Bool.and_elim_left (by exact hwf))
    | arr l => simp [objFields, nodupKeys]
    | str s => simp [objFields, nodupKeys]
    | num i => simp [objFields, nodupKeys]
    | bool b => simp [objFields, nodupKeys]
    | null => simp [objFields, nodupKeys]

/-- `allKeypathsInAst` relative to a base keypath (the inner `f` of the
source with accumulator `keypath`), with canonical fuel. -/
def aK (n : Node) (kp : Keypath) : List Keypath := allKeypathsF (sizeN n) n kp

theorem allKeypathsInAst_eq_aK (n : Node) : allKeypathsInAst n = aK n [] := rfl

theorem allKeypathsF_irrel : ∀ (f1 : Nat), ∀ (f2 : Nat) (n : Node) (kp : Keypath),
    sizeN n ≤ f1 → sizeN n ≤ f2 → allKeypathsF f1 n kp = allKeypathsF f2 n kp := by
  intro f1
  induction f1 with
  | zero => intro f2 n kp h1 _; have := sizeN_pos n; omega
  | succ f ih =>
    intro f2 n kp h1 h2
    cases f2 with
    | zero => have := sizeN_pos n; omega
    | succ g =>
      simp only [allKeypathsF, allKeypathsCore]
      apply flatMapCongr
      intro kc hm
      obtain ⟨k, c⟩ := kc
      have hsz : sizeN c < sizeN n := nodeEntries_sizeN hm
      by_cases hc : isCollection c = true
      · simp only [hc, if_true]
        rw [ih g c _ (by omega) (by omega)]
      · simp [hc]

theorem aK_eq (n : Node) (kp : Keypath) :
    aK n kp = (nodeEntries n).flatMap (fun kc =>
      (kp ++ [kc.1]) :: (if isCollection kc.2 then aK kc.2 (kp ++ [kc.1]) else [])) := by
  unfold aK
  cases hsz : sizeN n with
  | zero => have := sizeN_pos n; omega
  | succ m =>
    simp only [allKeypathsF, allKeypathsCore]
    apply flatMapCongr
    intro kc hm
    obtain ⟨k, c⟩ := kc
    have hsz2 : sizeN c < sizeN n := nodeEntries_sizeN hm
    by_cases hc : isCollection c = true
    · simp only [hc, if_true]
      rw [allKeypathsF_irrel m (sizeN c) c _ (by omega) (Nat.le_refl _)]
    · simp [hc]

theorem aK_shift : ∀ (fuel : Nat) (n : Node), sizeN n ≤ fuel → ∀ (base : Keypath),
    aK n base = (aK n []).map (fun s => base ++ s) := by
  intro fuel
  induction fuel with
  | zero => intro n h base; have := sizeN_pos n; omega
  | succ f ih =>
    intro n h base
    rw [aK_eq n base, aK_eq n [], List.map_flatMap]
    apply flatMapCongr
    intro kc hm
    obtain ⟨k, c⟩ := kc
    have hsz : sizeN c < sizeN n := nodeEntries_sizeN hm
    simp only [List.map_cons, List.nil_append]
    by_cases hc : isCollection c = true
    · simp only [hc, if_true]
      rw [ih c (by omega) (base ++ [k]), ih c (by omega) [k]]
      congr 1
      rw [List.map_map]
      apply List.map_congr_left
      intro s _
      simp
    · simp only [hc, if_false]
      rfl

theorem get_isCollection {c v : Node} {k : Key} (h : Node.get c k = some v) :
    isCollection c = true := by
  cases c <;> cases k <;> simp [Node.get] at h <;> simp [isCollection]

theorem aK_block_mem {kp : Keypath} {k : Key} {c : Node}
    (h : kp ∈ (if isCollection c then aK c [k] else ([] : List Keypath))) :
    ∃ s, kp = k :: s ∧ s ∈ aK c [] := by
  by_cases hc : isCollection c = true
  · rw [if_pos hc] at h
    rw [aK_shift (sizeN c) c (Nat.le_refl _) [k]] at h
    obtain ⟨s, hs, rfl⟩ := List.mem_map.mp h
    exact ⟨s, rfl, hs⟩
  · simp [hc] at h

theorem aK_nil_ne {n : Node} {kp : Keypath} (h : kp ∈ aK n []) : kp ≠ [] := by
  rw [aK_eq] at h
  obtain ⟨⟨k, c⟩, hm, hkp⟩ := List.mem_flatMap.mp h
  rcases List.mem_cons.mp hkp with rfl | hkp'
  · simp
  · obtain ⟨s, rfl, _⟩ := aK_block_mem hkp'
    simp

theorem aK_mem : ∀ (fuel : Nat) (n : Node), sizeN n ≤ fuel → wfNode n = true →
    ∀ kp, kp ∈ aK n [] ↔ (kp ≠ [] ∧ (Node.getIn n kp).isSome) := by
  intro fuel
  induction fuel with
  | zero => intro n h; have := sizeN_pos n; omega
  | succ f ih =>
    intro n h hwf kp
    constructor
    · intro hm
      refine ⟨aK_nil_ne hm, ?_⟩
      rw [aK_eq] at hm
      obtain ⟨⟨k, c⟩, hme, hkp⟩ := List.mem_flatMap.mp hm
      have hget : Node.get n k = some c := entries_get_wf (wf_keys hwf) hme
      rcases List.mem_cons.mp hkp with rfl | hkp'
      · simp [Node.getIn, hget]
      · obtain ⟨s, rfl, hs⟩ := aK_block_mem hkp'
        have hsz : sizeN c < sizeN n := nodeEntries_sizeN hme
        have := ((ih c (by omega) (wf_child hwf hme) s).mp hs).2
        simp [Node.getIn, hget]
        exact this
    · rintro ⟨hne, hsome⟩
      cases kp with
      | nil => exact absurd rfl hne
      | cons k s =>
        simp only [Node.getIn] at hsome
        cases hget : Node.get n k with
        | none => rw [hget] at hsome; simp at hsome
        | some c =>
          rw [hget] at hsome
          have hme : (k, c) ∈ nodeEntries n := entries_get hget
          rw [aK_eq]
          apply List.mem_flatMap.mpr
          refine ⟨(k, c), hme, ?_⟩
          show k :: s ∈ ([k] :: (if isCollection c then aK c [k] else []))
          cases s with
          | nil => simp
          | cons k2 s2 =>
            apply List.mem_cons.mpr
            right
            have hcoll : isCollection c = true := by
              simp only [Node.getIn] at hsome
              cases hg2 : Node.get c k2 with
              | none => rw [hg2] at hsome; simp at hsome
              | some v => exact get_isCollection hg2
            rw [if_pos hcoll, aK_shift (sizeN c) c (Nat.le_refl _) [k]]
            apply List.mem_map.mpr
            have hsz : sizeN c < sizeN n := nodeEntries_sizeN hme
            refine ⟨k2 :: s2, ?_, rfl⟩
            exact ((ih c (by omega) (wf_child hwf hme) (k2 :: s2)).mpr ⟨by simp, hsome⟩)

theorem entriesKeysNodup {n : Node} (hwf : wfNode n = true) :
    ((nodeEntries n).map Prod.fst).Nodup := by
  cases n with
  | obj kvs =>
    have hk := wf_keys hwf
    simp only [objFields] at hk
    have hnodup : (kvs.map Prod.fst).Nodup := by
      clear hwf
      induction kvs with
      | nil => simp
      | cons a rest ih =>
        obtain ⟨k, v⟩ := a
        simp [nodupKeys] at hk
        simp [List.nodup_cons]
        exact ⟨by simpa using hk.1, ih hk.2⟩
    have heq : (nodeEntries (Node.obj kvs)).map Prod.fst =
        (kvs.map Prod.fst).map Key.fld := by
      simp [nodeEntries, List.map_map]
    rw [heq]
    exact hnodup.map (fun a b hab => Key.fld.inj hab)
  | arr l =>
    have h1 : (l.enum.map Prod.fst).Nodup := by
      rw [List.enum_map_fst]
      exact List.nodup_range _
    have h2 : ((l.enum.map Prod.fst).map Key.idx).Nodup :=
      h1.map (fun a b hab => Key.idx.inj hab)
    have h3 : (nodeEntries (Node.arr l)).map Prod.fst =
        (l.enum.map Prod.fst).map Key.idx := by
      simp only [nodeEntries, List.map_map]
      rfl
    rw [h3]
    exact h2
  | str s => simp [nodeEntries]
  | num i => simp [nodeEntries]
  | bool b => simp [nodeEntries]
  | null => simp [nodeEntries]

theorem aK_pairwise : ∀ (fuel : Nat) (n : Node), sizeN n ≤ fuel → wfNode n = true →
    (aK n []).Pairwise (fun a b => ¬ b <+: a) := by
  intro fuel
  induction fuel with
  | zero => intro n h; have := sizeN_pos n; omega
  | succ f ih =>
    intro n h hwf
    rw [aK_eq]
    rw [show ((nodeEntries n).flatMap (fun kc =>
        ([] ++ [kc.1]) :: (if isCollection kc.2 then aK kc.2 ([] ++ [kc.1]) else []))) =
      ((nodeEntries n).map (fun kc =>
        ([kc.1]) :: (if isCollection kc.2 then aK kc.2 [kc.1] else []))).flatten from by
      simp [List.flatMap_def]]
    rw [List.pairwise_flatten]
    constructor
    · -- pairwise within each child's block
      intro bl hbl
      obtain ⟨⟨k, c⟩, hme, rfl⟩ := List.mem_map.mp hbl
      have hsz : sizeN c < sizeN n := nodeEntries_sizeN hme
      apply List.Pairwise.cons
      · intro y hy
        obtain ⟨s, rfl, hs⟩ := aK_block_mem (k := k) (c := c) (by
          simpa using hy)
        intro hpre
        have := hpre.length_le
        have hne := aK_nil_ne hs
        cases s with
        | nil => exact hne rfl
        | cons a b => simp at this
      · by_cases hc : isCollection c = true
        · rw [if_pos hc, aK_shift (sizeN c) c (Nat.le_refl _) [k]]
          rw [List.pairwise_map]
          have hp := ih c (by omega) (wf_child hwf hme)
          apply hp.imp_of_mem
          intro a b _ _ hab hpre
          exact hab (by simpa using hpre)
        · simp [hc]
    · -- blocks of distinct children never contain prefixes of each other
      have hkeys := entriesKeysNodup hwf
      have hne : (nodeEntries n).Pairwise (fun e e' => e.1 ≠ e'.1) := by
        have h' := hkeys
        rw [List.Nodup, List.pairwise_map] at h'
        exact h'
      rw [List.pairwise_map]
      apply hne.imp_of_mem
      intro e e' hme hme' hkk x hx y hy hpre
      obtain ⟨sx, rfl⟩ : ∃ sx, x = e.1 :: sx := by
        rcases List.mem_cons.mp hx with rfl | hx'
        · exact ⟨[], by simp⟩
        · obtain ⟨sx, hxe, _⟩ := aK_block_mem (by simpa using hx')
          exact ⟨sx, by simpa using hxe⟩
      obtain ⟨sy, rfl⟩ : ∃ sy, y = e'.1 :: sy := by
        rcases List.mem_cons.mp hy with rfl | hy'
        · exact ⟨[], by simp⟩
        · obtain ⟨sy, hye, _⟩ := aK_block_mem (by simpa using hy')
          exact ⟨sy, by simpa using hye⟩
      exact hkk ((List.cons_prefix_cons.mp hpre).1.symm)

theorem sublist_pair_of_pairwise {α : Type} {R : α → α → Prop} {l : List α} {a b : α}
    (hP : l.Pairwise R) (ha : a ∈ l) (hb : b ∈ l) (hnab : ¬ R b a) (hne : a ≠ b) :
    [a, b].Sublist l := by
  induction l with
  | nil => cases ha
  | cons x xs ih =>
    rcases List.mem_cons.mp ha with rfl | ha'
    · have hb' : b ∈ xs := by
        rcases List.mem_cons.mp hb with rfl | hb'
        · exact absurd rfl hne
        · exact hb'
      exact List.cons_sublist_cons.mpr (List.singleton_sublist.mpr hb')
    · rcases List.mem_cons.mp hb with rfl | hb'
      · exact absurd ((List.pairwise_cons.mp hP).1 a ha') hnab
      · exact ((ih (List.pairwise_cons.mp hP).2 ha' hb').cons x)

theorem aK_parent_before {n : Node} (hwf : wfNode n = true) {p q : Keypath}
    (hp : p ≠ []) (hq : q ≠ []) (hm : p ++ q ∈ aK n []) :
    [p, p ++ q].Sublist (aK n []) := by
  have hmem := (aK_mem (sizeN n) n (Nat.le_refl _) hwf (p ++ q)).mp hm
  have hpmem : p ∈ aK n [] := by
    apply (aK_mem (sizeN n) n (Nat.le_refl _) hwf p).mpr
    refine ⟨hp, ?_⟩
    have h2 := hmem.2
    rw [getIn_append] at h2
    cases hgp : Node.getIn n p with
    | none => rw [hgp] at h2; simp at h2
    | some m => simp
  have hP := aK_pairwise (sizeN n) n (Nat.le_refl _) hwf
  apply sublist_pair_of_pairwise hP hpmem hm
  · intro hr
    exact hr (List.prefix_append p q)
  · intro hc
    have hlen := congrArg List.length hc
    simp at hlen
    exact hq hlen

theorem pair_sublist_append {α : Type} {x y : α} {l₁ l₂ : List α}
    (hx : x ∈ l₁) (hy : y ∈ l₂) : [x, y].Sublist (l₁ ++ l₂) := by
  have h1 : [x].Sublist l₁ := List.singleton_sublist.mpr hx
  have h2 : [y].Sublist l₂ := List.singleton_sublist.mpr hy
  simpa using h1.append h2

/-- The keypaths contributed by one child entry. -/
def blockf (kc : Key × Node) : List Keypath :=
  [kc.1] :: (if isCollection kc.2 then aK kc.2 [kc.1] else [])

theorem aK_eq_flatten (n : Node) :
    aK n [] = ((nodeEntries n).map blockf).flatten := by
  rw [aK_eq, List.flatMap_def]
  apply congrArg List.flatten
  apply List.map_congr_left
  intro kc _
  simp [blockf]

theorem block_head {x : Keypath} {kc : Key × Node} (h : x ∈ blockf kc) :
    ∃ s, x = kc.1 :: s := by
  rcases List.mem_cons.mp h with rfl | h'
  · exact ⟨[], rfl⟩
  · obtain ⟨s, rfl, _⟩ := aK_block_mem h'
    exact ⟨s, rfl⟩

theorem entries_unique {n : Node} (hwf : wfNode n = true) {k : Key} {c c' : Node}
    (h1 : (k, c) ∈ nodeEntries n) (h2 : (k, c') ∈ nodeEntries n) : c = c' := by
  have g1 := entries_get_wf (wf_keys hwf) h1
  have g2 := entries_get_wf (wf_keys hwf) h2
  rw [g1] at g2
  exact Option.some.inj g2

theorem base_sibling : ∀ (es : List (Key × Node)) (l₁ l₂ l₃ : List Key) (k₁ k₂ : Key)
    (s₁ s₂ : Keypath),
    es.map Prod.fst = l₁ ++ k₁ :: l₂ ++ k₂ :: l₃ →
    (es.map Prod.fst).Nodup →
    (k₁ :: s₁) ∈ (es.map blockf).flatten →
    (k₂ :: s₂) ∈ (es.map blockf).flatten →
    [k₁ :: s₁, k₂ :: s₂].Sublist ((es.map blockf).flatten) := by
  intro es
  induction es with
  | nil =>
    intro l₁ l₂ l₃ k₁ k₂ s₁ s₂ hsplit
    exfalso
    cases l₁ <;> simp at hsplit
  | cons e rest ih =>
    intro l₁ l₂ l₃ k₁ k₂ s₁ s₂ hsplit hnd hxm hym
    have hnd' : e.1 ∉ rest.map Prod.fst ∧ (rest.map Prod.fst).Nodup := by
      simpa [List.map_cons, List.nodup_cons] using hnd
    simp only [List.map_cons, List.flatten_cons] at hxm hym ⊢
    cases l₁ with
    | nil =>
      rw [List.map_cons, List.nil_append] at hsplit
      injection hsplit with hk1 hrest
      have hk1notin : k₁ ∉ rest.map Prod.fst := hk1 ▸ hnd'.1
      have hk2in : k₂ ∈ rest.map Prod.fst := by rw [hrest]; simp
      have hk12 : k₂ ≠ k₁ := fun hc => hk1notin (hc ▸ hk2in)
      have hxblock : k₁ :: s₁ ∈ blockf e := by
        rcases List.mem_append.mp hxm with h | h
        · exact h
        · exfalso
          obtain ⟨bl, hblm, hxbl⟩ := List.mem_flatten.mp h
          obtain ⟨e', hem, rfl⟩ := List.mem_map.mp hblm
          obtain ⟨s, hs⟩ := block_head hxbl
          injection hs with hs1 _
          exact hk1notin (hs1 ▸ List.mem_map.mpr ⟨e', hem, rfl⟩)
      have hyrest : k₂ :: s₂ ∈ (rest.map blockf).flatten := by
        rcases List.mem_append.mp hym with h | h
        · exfalso
          obtain ⟨s, hs⟩ := block_head h
          injection hs with hs1 _
          exact hk12 (hs1.trans hk1)
        · exact h
      exact pair_sublist_append hxblock hyrest
    | cons kh l₁' =>
      rw [List.map_cons, List.cons_append] at hsplit
      injection hsplit with hkh hrest
      have hkhnotin : kh ∉ rest.map Prod.fst := hkh ▸ hnd'.1
      have hk1in : k₁ ∈ rest.map Prod.fst := by rw [hrest]; simp
      have hk2in : k₂ ∈ rest.map Prod.fst := by rw [hrest]; simp
      have hxk : k₁ ≠ kh := fun hc => hkhnotin (hc ▸ hk1in)
      have hyk : k₂ ≠ kh := fun hc => hkhnotin (hc ▸ hk2in)
      have hxrest : k₁ :: s₁ ∈ (rest.map blockf).flatten := by
        rcases List.mem_append.mp hxm with h | h
        · exfalso
          obtain ⟨s, hs⟩ := block_head h
          injection hs with hs1 _
          exact hxk (hs1.trans hkh)
        · exact h
      have hyrest : k₂ :: s₂ ∈ (rest.map blockf).flatten := by
        rcases List.mem_append.mp hym with h | h
        · exfalso
          obtain ⟨s, hs⟩ := block_head h
          injection hs with hs1 _
          exact hyk (hs1.trans hkh)
        · exact h
      have hsb := ih l₁' l₂ l₃ k₁ k₂ s₁ s₂ hrest hnd'.2 hxrest hyrest
      exact hsb.trans (List.sublist_append_right _ _)

theorem aK_sibling : ∀ (fuel : Nat) (n : Node), sizeN n ≤ fuel → wfNode n = true →
    ∀ (r : Keypath) (nr : Node), Node.getIn n r = some nr →
    ∀ (l₁ l₂ l₃ : List Key) (k₁ k₂ : Key) (s₁ s₂ : Keypath),
      (nodeEntries nr).map Prod.fst = l₁ ++ k₁ :: l₂ ++ k₂ :: l₃ →
      (r ++ k₁ :: s₁) ∈ aK n [] → (r ++ k₂ :: s₂) ∈ aK n [] →
      [r ++ k₁ :: s₁, r ++ k₂ :: s₂].Sublist (aK n []) := by
  intro fuel
  induction fuel with
  | zero => intro n h; have := sizeN_pos n; omega
  | succ f ihf =>
    intro n h hwf r nr hget l₁ l₂ l₃ k₁ k₂ s₁ s₂ hsplit hxm hym
    cases r with
    | nil =>
      simp only [Node.getIn] at hget
      have hnr : nr = n := (Option.some.inj hget).symm
      subst hnr
      rw [aK_eq_flatten] at hxm hym ⊢
      simpa using base_sibling (nodeEntries nr) l₁ l₂ l₃ k₁ k₂ s₁ s₂ hsplit
        (entriesKeysNodup hwf) (by simpa using hxm) (by simpa using hym)
    | cons k r' =>
      have hgk : ∃ c, Node.get n k = some c ∧ Node.getIn c r' = some nr := by
        simp only [Node.getIn] at hget
        cases hg : Node.get n k with
        | none => rw [hg] at hget; simp at hget
        | some c => rw [hg] at hget; exact ⟨c, rfl, hget⟩
      obtain ⟨c, hg, hgr⟩ := hgk
      have hme : (k, c) ∈ nodeEntries n := entries_get hg
      have hsz : sizeN c < sizeN n := nodeEntries_sizeN hme
      have hwfc : wfNode c = true := wf_child hwf hme
      -- strip the common head key from both memberships
      have strip : ∀ (s : Keypath), (k :: s) ∈ aK n [] → s ≠ [] → s ∈ aK c [] := by
        intro s hmem hne
        rw [aK_eq_flatten] at hmem
        obtain ⟨bl, hblm, hxbl⟩ := List.mem_flatten.mp hmem
        obtain ⟨e', hem, rfl⟩ := List.mem_map.mp hblm
        rcases List.mem_cons.mp hxbl with heq | hin
        · exact absurd (by simpa using congrArg List.tail heq) hne
        · obtain ⟨s'', heq, hmem''⟩ := aK_block_mem hin
          injection heq with h1 h2
          have hc2 : e'.2 = c := by
            apply entries_unique hwf ?memk hme
            case memk =>
              have hpair : (k, e'.2) = e' := by
                rw [h1]
              rw [hpair]
              exact hem
          rw [h2, ← hc2]
          exact hmem''
      have hx' : (r' ++ k₁ :: s₁) ∈ aK c [] := by
        apply strip
        · simpa using hxm
        · simp
      have hy' : (r' ++ k₂ :: s₂) ∈ aK c [] := by
        apply strip
        · simpa using hym
        · simp
      have hsub := ihf c (by omega) hwfc r' nr hgr l₁ l₂ l₃ k₁ k₂ s₁ s₂ hsplit hx' hy'
      have hcoll : isCollection c = true := by
        cases r' with
        | cons a b =>
          simp only [Node.getIn] at hgr
          cases hg2 : Node.get c a with
          | none => rw [hg2] at hgr; simp at hgr
          | some v => exact get_isCollection hg2
        | nil =>
          simp only [Node.getIn] at hgr
          have hnc : nr = c := (Option.some.inj hgr).symm
          subst hnc
          have hne2 : (nodeEntries nr).map Prod.fst ≠ [] := by
            rw [hsplit]
            cases l₁ <;> simp
          cases nr with
          | obj kvs => simp [isCollection]
          | arr l => simp [isCollection]
          | str s => simp [nodeEntries] at hne2
          | num i => simp [nodeEntries] at hne2
          | bool b => simp [nodeEntries] at hne2
          | null => simp [nodeEntries] at hne2
      -- lift back through the head key and embed in the enumeration
      have hlift : [k :: (r' ++ k₁ :: s₁), k :: (r' ++ k₂ :: s₂)].Sublist (aK c [k]) := by
        rw [aK_shift (sizeN c) c (Nat.le_refl _) [k]]
        have hmap := hsub.map (fun s => [k] ++ s)
        simpa using hmap
      have hblocks : (aK c [k]).Sublist (blockf (k, c)) := by
        simp only [blockf]
        rw [if_pos hcoll]
        exact List.sublist_cons_self _ _
      obtain ⟨es₁, es₂, hes⟩ := List.append_of_mem hme
      rw [aK_eq_flatten, hes]
      have hdecomp : ((es₁ ++ (k, c) :: es₂).map blockf).flatten =
          (es₁.map blockf).flatten ++ (blockf (k, c) ++ (es₂.map blockf).flatten) := by
        simp [List.map_append, List.flatten_append]
      rw [hdecomp]
      have hstep1 : [k :: (r' ++ k₁ :: s₁), k :: (r' ++ k₂ :: s₂)].Sublist
          (blockf (k, c) ++ (es₂.map blockf).flatten) :=
        (hlift.trans hblocks).trans (List.sublist_append_left _ _)
      have hstep2 := hstep1.trans
        (List.sublist_append_right ((es₁.map blockf).flatten)
          (blockf (k, c) ++ (es₂.map blockf).flatten))
      simpa using hstep2

/-- Demonstration tree for the keypath enumeration: an object holding an array
of two strings and a number. -/
def demoC8 : Node :=
  Node.obj [("a", Node.arr [Node.str "x", Node.str "y"]), ("b", Node.num 1)]

/-- C8 counterexample: the root node is reachable (its keypath resolves to the
tree itself), yet `allKeypathsInAst` never emits the root keypath `[]` — the
traversal pushes only child keypaths, so the enumeration covers every reachable
node EXCEPT the root, contrary to the claim "including the root". -/
theorem C8_counterexample :
    Node.getIn (Node.obj [("a", Node.str "x")]) [] =
      some (Node.obj [("a", Node.str "x")]) ∧
    ([] : Keypath) ∉ allKeypathsInAst (Node.obj [("a", Node.str "x")]) ∧
    allKeypathsInAst (Node.obj [("a", Node.str "x")]) = [[Key.fld "a"]] := by
  refine ⟨rfl, ?_, rfl⟩
  decide

/-- C8: for every well-formed tree (no duplicate object keys),
`allKeypathsInAst` enumerates exactly the keypaths of the reachable NON-ROOT
nodes (the root keypath `[]` is omitted), in pre-order: no later keypath is a
prefix of an earlier one, every parent keypath appears before each of its
descendants' keypaths, and for any two entries of one collection the children
of the earlier-declared entry all appear before the children of the
later-declared one. -/
theorem C8_allKeypathsOrder (n : Node) (hwf : wfNode n = true) :
    (∀ kp : Keypath, kp ∈ allKeypathsInAst n ↔
      (kp ≠ [] ∧ (Node.getIn n kp).isSome)) ∧
    (allKeypathsInAst n).Pairwise (fun a b => ¬ b <+: a) ∧
    (∀ p q : Keypath, p ≠ [] → q ≠ [] → p ++ q ∈ allKeypathsInAst n →
      [p, p ++ q].Sublist (allKeypathsInAst n)) ∧
    (∀ (r : Keypath) (nr : Node), Node.getIn n r = some nr →
      ∀ (l₁ l₂ l₃ : List Key) (k₁ k₂ : Key) (s₁ s₂ : Keypath),
        (nodeEntries nr).map Prod.fst = l₁ ++ k₁ :: l₂ ++ k₂ :: l₃ →
        (r ++ k₁ :: s₁) ∈ allKeypathsInAst n →
        (r ++ k₂ :: s₂) ∈ allKeypathsInAst n →
        [r ++ k₁ :: s₁, r ++ k₂ :: s₂].Sublist (allKeypathsInAst n)) := by
  rw [allKeypathsInAst_eq_aK]
  refine ⟨?_, ?_, ?_, ?_⟩
  · intro kp
    exact aK_mem (sizeN n) n (Nat.le_refl _) hwf kp
  · exact aK_pairwise (sizeN n) n (Nat.le_refl _) hwf
  · intro p q hp hq hm
    exact aK_parent_before hwf hp hq hm
  · intro r nr hget l₁ l₂ l₃ k₁ k₂ s₁ s₂ hsplit hx hy
    exact aK_sibling (sizeN n) n (Nat.le_refl _) hwf r nr hget l₁ l₂ l₃ k₁ k₂ s₁ s₂
      hsplit hx hy

/-- Concrete instantiation of the enumeration theorem on `demoC8`. -/
theorem C8_allKeypathsOrder_witness :
    wfNode demoC8 = true ∧
    [Key.fld "a", Key.idx 0] ∈ allKeypathsInAst demoC8 := by
  refine ⟨by decide, ?_⟩
  exact ((C8_allKeypathsOrder demoC8 (by decide)).1 [Key.fld "a", Key.idx 0]).mpr
    (by decide)

theorem bind_discard_ok {α β : Type} (a : Except JsError α) (x y : β)
    (h : (a >>= fun _ => pure x) = Except.ok y) : x = y := by
  cases a with
  | error e => simp [bind, Except.bind] at h
  | ok v =>
    simp [bind, Except.bind, pure, Except.pure] at h
    exact h

theorem keypathsFor_ok_filter (ast : Node) (kps : List Keypath)
    (h : keypathsForMessageNodesInAst ast = .ok kps) :
    kps = (allKeypathsInAst ast).filter (fun kp =>
      match Node.getIn ast kp with | some n => isMarker n | none => false) := by
  unfold keypathsForMessageNodesInAst at h
  exact (bind_discard_ok _ _ _ h).symm

theorem reduceRightM_append (f : Node → Keypath → Except JsError Node)
    (init : Node) : ∀ (pre rest : List Keypath),
    reduceRightM f init (pre ++ rest) =
      (reduceRightM f init rest) >>= fun acc => reduceRightM f acc pre := by
  intro pre rest
  induction pre with
  | nil =>
    simp only [List.nil_append]
    cases h : reduceRightM f init rest <;>
      simp [h, reduceRightM, bind, Except.bind]
  | cons kp pre' ih =>
    simp only [List.cons_append, reduceRightM, List.append_eq]
    rw [ih]
    cases h : reduceRightM f init rest <;>
      simp [h, reduceRightM, bind, Except.bind]

theorem substitute_ok_shape (pf : String → Node) (tr : String → Option String)
    (a : Node) (kp : Keypath) (a' : Node)
    (h : substitute pf tr a kp = .ok a') :
    ∃ msg v, Node.getIn a kp = some msg ∧ a' = Node.setIn a kp v := by
  unfold substitute at h
  cases hg : Node.getIn a kp with
  | none => rw [hg] at h; simp at h
  | some message =>
    rw [hg] at h
    refine ⟨message, ?_⟩
    split at h
    · simp at h
    · split at h
      · simp at h
      · split at h
        · simp at h
        · split at h
          · simp at h
          · split at h
            · simp at h
            · split at h
              · simp at h
              · exact ⟨_, rfl, (Except.ok.inj h).symm⟩

theorem getIn_setIn_stable (a : Node) (kp p : Keypath) (v : Node)
    (hp : (Node.getIn a p).isSome) (hnp : ¬ kp <+: p) :
    (Node.getIn (Node.setIn a kp v) p).isSome := by
  by_cases hpq : p <+: kp
  · obtain ⟨q, rfl⟩ := hpq
    obtain ⟨w, hw⟩ := Option.isSome_iff_exists.mp hp
    rw [setIn_append p q a w v hw]
    rw [getIn_setIn_self p a w (Node.setIn w q v) hw]
    simp
  · rw [getIn_setIn_divergent kp p a v hnp hpq]
    exact hp

theorem reduceRight_stability (pf : String → Node) (tr : String → Option String) :
    ∀ (rest : List Keypath) (a acc : Node),
    reduceRightM (substitute pf tr) a rest = .ok acc →
    ∀ p : Keypath, (∀ kp ∈ rest, ¬ kp <+: p) → (Node.getIn a p).isSome →
      (Node.getIn acc p).isSome := by
  intro rest
  induction rest with
  | nil =>
    intro a acc h p _ hs
    simp only [reduceRightM] at h
    rw [← Except.ok.inj h]
    exact hs
  | cons kp rest' ih =>
    intro a acc h p hnp hs
    simp only [reduceRightM, bind, Except.bind] at h
    cases hr : reduceRightM (substitute pf tr) a rest' with
    | error e => rw [hr] at h; simp at h
    | ok acc₀ =>
      rw [hr] at h
      have h0 : (Node.getIn acc₀ p).isSome :=
        ih a acc₀ hr p (fun k hk => hnp k (List.mem_cons_of_mem _ hk)) hs
      obtain ⟨msg, v, hg, rfl⟩ := substitute_ok_shape pf tr acc₀ kp acc h
      exact getIn_setIn_stable acc₀ kp p v h0 (hnp kp (List.mem_cons_self _ _))

theorem reduceRight_locality (pf : String → Node) (tr : String → Option String) :
    ∀ (rest : List Keypath) (a acc : Node),
    reduceRightM (substitute pf tr) a rest = .ok acc →
    ∀ p : Keypath, (∀ kp ∈ rest, ¬ kp <+: p ∧ ¬ p <+: kp) →
      Node.getIn acc p = Node.getIn a p := by
  intro rest
  induction rest with
  | nil =>
    intro a acc h p _
    simp only [reduceRightM] at h
    rw [← Except.ok.inj h]
  | cons kp rest' ih =>
    intro a acc h p hdiv
    simp only [reduceRightM, bind, Except.bind] at h
    cases hr : reduceRightM (substitute pf tr) a rest' with
    | error e => rw [hr] at h; simp at h
    | ok acc₀ =>
      rw [hr] at h
      obtain ⟨msg, v, hg, rfl⟩ := substitute_ok_shape pf tr acc₀ kp acc h
      have hkp := hdiv kp (List.mem_cons_self _ _)
      rw [getIn_setIn_divergent kp p acc₀ v hkp.1 hkp.2]
      exact ih a acc₀ hr p (fun k hk => hdiv k (List.mem_cons_of_mem _ hk))

/-- C3: the driver enumerates exactly the marker keypaths of the document in
pre-order, and processes them from the LAST one: for any split of the list
it first folds the suffix and then the prefix, each step handing `substitute`
the current accumulated tree (so the node is re-fetched from the partially
rewritten document, not the original parse).  Under well-formedness, after
the suffix has been processed every pending (prefix) keypath still resolves
in the accumulator, and the accumulator agrees with the original document at
every path that neither contains nor is contained in a processed keypath —
rewrites are confined to the processed messages' subtrees and their spines. -/
theorem C3_driverOrder (pf : String → Node) (tr : String → Option String)
    (ast : Node) (hwf : wfNode ast = true)
    (kps : List Keypath) (hk : keypathsForMessageNodesInAst ast = .ok kps) :
    kps = (allKeypathsInAst ast).filter (fun kp =>
      match Node.getIn ast kp with | some n => isMarker n | none => false) ∧
    (∀ pre rest : List Keypath, kps = pre ++ rest →
      translateMessagesInAst pf ast tr =
        (reduceRightM (substitute pf tr) ast rest) >>=
          fun acc => reduceRightM (substitute pf tr) acc pre) ∧
    (∀ (kp : Keypath) (rest : List Keypath) (acc : Node),
      reduceRightM (substitute pf tr) ast rest = .ok acc →
      reduceRightM (substitute pf tr) ast (kp :: rest) = substitute pf tr acc kp) ∧
    (∀ (pre rest : List Keypath) (acc : Node), kps = pre ++ rest →
      reduceRightM (substitute pf tr) ast rest = .ok acc →
      (∀ kp ∈ pre, (Node.getIn acc kp).isSome) ∧
      (∀ p : Keypath, (∀ kp ∈ rest, ¬ kp <+: p ∧ ¬ p <+: kp) →
        Node.getIn acc p = Node.getIn ast p)) := by
  have hfil := keypathsFor_ok_filter ast kps hk
  have hpw : kps.Pairwise (fun a b => ¬ b <+: a) := by
    rw [hfil]
    exact List.Pairwise.sublist (List.filter_sublist _)
      (aK_pairwise (sizeN ast) ast (Nat.le_refl _) hwf)
  refine ⟨hfil, ?_, ?_, ?_⟩
  · intro pre rest hsplit
    simp only [translateMessagesInAst, hk, bind, Except.bind]
    rw [hsplit]
    exact reduceRightM_append _ ast pre rest
  · intro kp rest acc hacc
    simp only [reduceRightM, bind, Except.bind, hacc]
  · intro pre rest acc hsplit hacc
    have hcross : ∀ a ∈ pre, ∀ b ∈ rest, ¬ b <+: a := by
      have hpw2 := hpw
      rw [hsplit] at hpw2
      exact (List.pairwise_append.mp hpw2).2.2
    constructor
    · intro kp' hkp'
      apply reduceRight_stability pf tr rest ast acc hacc kp'
      · intro k hkm
        exact hcross kp' hkp' k hkm
      · have hmem : kp' ∈ kps := by
          rw [hsplit]
          exact List.mem_append_left _ hkp'
        rw [hfil] at hmem
        have hpred := (List.mem_filter.mp hmem).2
        cases hgg : Node.getIn ast kp' with
        | none => rw [hgg] at hpred; simp at hpred
        | some w => simp [hgg]
    · intro p hdiv
      exact reduceRight_locality pf tr rest ast acc hacc p hdiv

/-- A translation table and a fragment parser for the driver instantiation. -/
def trNone : String → Option String := fun _ => none

def pfNull : String → Node := fun _ => Node.null

/-- Concrete instantiation of the driver-ordering theorem on `helloProgram`:
its single message keypath. -/
theorem C3_driverOrder_witness :
    wfNode helloProgram = true ∧
    ([[Key.fld "body", Key.idx 0, Key.fld "expression"]] : List Keypath) =
      (allKeypathsInAst helloProgram).filter (fun kp =>
        match Node.getIn helloProgram kp with
        | some n => isMarker n
        | none => false) := by
  refine ⟨by decide, ?_⟩
  exact (C3_driverOrder pfNull trNone helloProgram (by decide)
    [[Key.fld "body", Key.idx 0, Key.fld "expression"]] (by decide)).1

theorem alistSet_keys (m : List (Node × Node)) (k v : Node) :
    (alistSet m k v).map Prod.fst =
      if k ∈ m.map Prod.fst then m.map Prod.fst else m.map Prod.fst ++ [k] := by
  induction m with
  | nil => simp [alistSet]
  | cons a rest ih =>
    obtain ⟨k', v'⟩ := a
    by_cases hk : k' = k
    · subst hk
      simp [alistSet]
    · by_cases hmem : k ∈ rest.map Prod.fst <;>
        simp [alistSet, hk, ih, hmem, Ne.symm hk]

theorem alistGet_set (m : List (Node × Node)) (k v k' : Node) :
    alistGet (alistSet m k v) k' = if k' = k then some v else alistGet m k' := by
  induction m with
  | nil =>
    by_cases h : k' = k
    · subst h
      simp [alistSet, alistGet]
    · have h' : ¬ k = k' := fun he => h he.symm
      simp [alistSet, alistGet, h, h']
  | cons a rest ih =>
    obtain ⟨k'', v''⟩ := a
    by_cases h2 : k'' = k
    · subst h2
      by_cases h : k' = k''
      · subst h
        simp [alistSet, alistGet]
      · have h' : ¬ k'' = k' := fun he => h he.symm
        simp [alistSet, alistGet, h, h']
    · simp only [alistSet, if_neg h2, alistGet]
      by_cases h3 : k'' = k'
      · subst h3
        simp [h2]
      · rw [if_neg h3, if_neg h3, ih]

theorem alistGet_none_of_not_mem (m : List (Node × Node)) (k : Node)
    (h : k ∉ m.map Prod.fst) : alistGet m k = none := by
  induction m with
  | nil => rfl
  | cons a rest ih =>
    obtain ⟨k', v'⟩ := a
    simp only [List.map_cons, List.mem_cons] at h
    push_neg at h
    have h' : ¬ k' = k := fun he => h.1 he.symm
    simp [alistGet, h', ih h.2]

theorem alistSet_keys_nodup (m : List (Node × Node)) (k v : Node)
    (h : (m.map Prod.fst).Nodup) : ((alistSet m k v).map Prod.fst).Nodup := by
  by_cases hmem : k ∈ m.map Prod.fst
  · rw [alistSet_keys, if_pos hmem]
    exact h
  · rw [alistSet_keys, if_neg hmem]
    simp [List.nodup_append, h, hmem]

theorem attributeMap_aux_nodup (attrs : List Node) :
    ∀ m : List (Node × Node), (m.map Prod.fst).Nodup →
    ((attrs.foldl (fun m a => alistSet m (getD a "name") (getD a "value")) m).map
      Prod.fst).Nodup := by
  induction attrs with
  | nil => intro m h; simpa using h
  | cons a rest ih =>
    intro m h
    exact ih _ (alistSet_keys_nodup _ _ _ h)

theorem attributeMap_nodup (attrs : List Node) :
    ((attributeMap attrs).map Prod.fst).Nodup :=
  attributeMap_aux_nodup attrs [] (by simp)

theorem alistGet_merge (m2 : List (Node × Node)) :
    ∀ (m1 : List (Node × Node)) (k : Node), (m2.map Prod.fst).Nodup →
    alistGet (alistMerge m1 m2) k =
      (match alistGet m2 k with
       | some v => some v
       | none => alistGet m1 k) := by
  induction m2 with
  | nil => intro m1 k _; simp [alistMerge, alistGet]
  | cons kv m2' ih =>
    intro m1 k hnd
    obtain ⟨k2, v2⟩ := kv
    have hk2 : k2 ∉ m2'.map Prod.fst := (List.nodup_cons.mp (by simpa using hnd)).1
    have hnd' : (m2'.map Prod.fst).Nodup := (List.nodup_cons.mp (by simpa using hnd)).2
    rw [show alistMerge m1 ((k2, v2) :: m2') = alistMerge (alistSet m1 k2 v2) m2' from rfl]
    rw [ih (alistSet m1 k2 v2) k hnd']
    by_cases hk : k = k2
    · subst hk
      rw [alistGet_none_of_not_mem m2' k hk2]
      simp [alistGet, alistGet_set]
    · have hk' : ¬ k2 = k := fun he => hk he.symm
      cases hg : alistGet m2' k <;>
        simp [hg, alistGet, alistGet_set, hk, hk']

theorem alistMerge_keys (m2 : List (Node × Node)) :
    ∀ m1 : List (Node × Node), (m2.map Prod.fst).Nodup →
    (alistMerge m1 m2).map Prod.fst =
      m1.map Prod.fst ++ (m2.map Prod.fst).filter
        (fun k => decide (k ∉ m1.map Prod.fst)) := by
  induction m2 with
  | nil => intro m1 _; simp [alistMerge]
  | cons kv m2' ih =>
    intro m1 hnd
    obtain ⟨k2, v2⟩ := kv
    have hk2 : k2 ∉ m2'.map Prod.fst := (List.nodup_cons.mp (by simpa using hnd)).1
    have hnd' : (m2'.map Prod.fst).Nodup := (List.nodup_cons.mp (by simpa using hnd)).2
    rw [show alistMerge m1 ((k2, v2) :: m2') = alistMerge (alistSet m1 k2 v2) m2' from rfl]
    rw [ih (alistSet m1 k2 v2) hnd']
    rw [alistSet_keys]
    by_cases hmem : k2 ∈ m1.map Prod.fst
    · rw [if_pos hmem]
      congr 1
      rw [List.map_cons, List.filter_cons]
      have hf : decide (k2 ∉ m1.map Prod.fst) = false := by simp [hmem]
      rw [hf]
      simp
    · rw [if_neg hmem]
      rw [List.append_assoc]
      congr 1
      rw [List.map_cons, List.filter_cons]
      have hf : decide (k2 ∉ m1.map Prod.fst) = true := by simp [hmem]
      rw [hf]
      simp only [if_true]
      rw [List.singleton_append]
      congr 1
      apply List.filter_congr
      intro x hx
      have hxne : x ≠ k2 := fun h => hk2 (h ▸ hx)
      simp [List.mem_append, hxne]

/-- The scenario-B translation `<a:my-link href="example.fr">Example</a:my-link>`. -/
def tB : Node := mkElem (mkNSName "a" "my-link") [mkAttr "href" "example.fr"] [mkLit "Example"]

/-- The scenario-B original message element, `href` first, hidden `target` second. -/
def origB : Node := mkElem (mkNSName "a" "my-link")
  [mkAttr "href" "example.com", mkAttr "target" "_blank"] [mkLit "Example"]

/-- The definition map extracted from `origB`: its hidden attributes under
its designation. -/
def defsB : List (String × Node) := [("my-link", Node.arr [mkAttr "target" "_blank"])]

/-- The reconstitution of `tB` against `defsB` with an identity recursion. -/
def recB : Node := ((reconstituteJsxElementCore pure tB defsB).toOption).getD Node.null

/-- C2 (amended): when a translated element carries a designation found in the
original's definition map, `reconstituteJsxElement` replaces its attributes by
`attributesFromMap` of the ORIGINAL hidden attributes merged with the
translator's: lookups are won by the translator on name collision, but the
ORDER is original-hidden-keys first (in their stored order) followed by the
translator's new keys — the translator's attribute order is NOT authoritative.
The designation is then removed and the children are reconstituted
recursively. -/
theorem C2_reconstituteMerge (recur : Node → Except JsError Node) (t : Node)
    (defs : List (String × Node)) (d : String) (origList : List Node) (r : Node)
    (h1 : hasUnsafeAttributes t = Except.ok false)
    (h2 : componentDesignation t = Except.ok (some d))
    (h3 : d ≠ "")
    (h4 : defsGet defs d = some (Node.arr origList))
    (h5 : reconstituteJsxElementCore recur t defs = Except.ok r) :
    (∀ k, alistGet (alistMerge (attributeMap origList) (attributeMap (attributes t))) k =
      (match alistGet (attributeMap (attributes t)) k with
       | some v => some v
       | none => alistGet (attributeMap origList) k)) ∧
    ((alistMerge (attributeMap origList) (attributeMap (attributes t))).map Prod.fst =
      (attributeMap origList).map Prod.fst ++
        ((attributeMap (attributes t)).map Prod.fst).filter
          (fun k => decide (k ∉ (attributeMap origList).map Prod.fst))) ∧
    (∃ rd, removeDesignation (setAttributes t (attributesFromMap
        (alistMerge (attributeMap origList) (attributeMap (attributes t))))) =
          Except.ok rd ∧
      (match getF rd "children" with
       | some (Node.arr cs) =>
         ∃ cs2, mapME recur cs = Except.ok cs2 ∧
           r = Node.set rd (Key.fld "children") (Node.arr cs2)
       | _ => r = rd)) := by
  refine ⟨?_, ?_, ?_⟩
  · intro k
    exact alistGet_merge (attributeMap (attributes t)) (attributeMap origList) k
      (attributeMap_nodup _)
  · exact alistMerge_keys (attributeMap (attributes t)) (attributeMap origList)
      (attributeMap_nodup _)
  · unfold reconstituteJsxElementCore at h5
    rw [h1] at h5
    simp only [bind, Except.bind, h2, h4, if_neg h3, Bool.false_eq_true, if_false] at h5
    cases hrd : removeDesignation (setAttributes t (attributesFromMap
        (alistMerge (attributeMap origList) (attributeMap (attributes t))))) with
    | error e =>
      rw [hrd] at h5
      simp at h5
    | ok rd =>
      rw [hrd] at h5
      simp only [bind, Except.bind] at h5
      refine ⟨rd, rfl, ?_⟩
      cases hch : getF rd "children" with
      | none =>
        simp only [hch, pure, Except.pure] at h5
        exact (Except.ok.inj h5).symm
      | some c =>
        cases c with
        | arr cs =>
          simp only [hch] at h5
          cases hm : mapME recur cs with
          | error e =>
            rw [hm] at h5
            simp [bind, Except.bind] at h5
          | ok cs2 =>
            rw [hm] at h5
            simp only [bind, Except.bind, pure, Except.pure] at h5
            exact ⟨cs2, hm, (Except.ok.inj h5).symm⟩
        | obj kvs =>
          simp only [hch, pure, Except.pure] at h5
          exact (Except.ok.inj h5).symm
        | str s =>
          simp only [hch, pure, Except.pure] at h5
          exact (Except.ok.inj h5).symm
        | num i =>
          simp only [hch, pure, Except.pure] at h5
          exact (Except.ok.inj h5).symm
        | bool b =>
          simp only [hch, pure, Except.pure] at h5
          exact (Except.ok.inj h5).symm
        | null =>
          simp only [hch, pure, Except.pure] at h5
          exact (Except.ok.inj h5).symm

/-- C2 counterexample: reconstituting the scenario translation
`<a:my-link href="example.fr">Example</a:my-link>` against the original
`<a href="example.com" target="_blank">Example</a>` yields the attribute
list `target, href` — the hidden attribute comes FIRST, so the claimed
printed form `<a href="example.fr" target="_blank">` (translator order
preserved) is not what the code produces. -/
theorem C2_counterexample :
    (reconstitute tB origB).map (fun r => (attributes r).map attributeName) =
      Except.ok [some "target", some "href"] ∧
    ([some "target", some "href"] : List (Option String)) ≠
      [some "href", some "target"] := by
  refine ⟨?_, by decide⟩
  decide

/-- Concrete instantiation of the merge characterization on the scenario
translation: the merged key order is hidden-first. -/
theorem C2_reconstituteMerge_witness :
    hasUnsafeAttributes tB = Except.ok false ∧
    ((alistMerge (attributeMap [mkAttr "target" "_blank"])
        (attributeMap (attributes tB))).map Prod.fst =
      (attributeMap [mkAttr "target" "_blank"]).map Prod.fst ++
        ((attributeMap (attributes tB)).map Prod.fst).filter
          (fun k => decide (k ∉ (attributeMap [mkAttr "target" "_blank"]).map
            Prod.fst))) := by
  refine ⟨by decide, ?_⟩
  exact (C2_reconstituteMerge pure tB defsB "my-link" [mkAttr "target" "_blank"] recB
    (by decide) (by decide) (by decide) (by decide) (by decide)).2.1

/-- The structural shape a plain element must have for the round trip: a
plain `XJSIdentifier` name and attribute/children lists in place.  Returns
the name node, the name string, the attributes and the children. -/
def goodShape (n : Node) : Option (Node × String × List Node × List Node) :=
  match Node.getIn n [Key.fld "openingElement", Key.fld "name"] with
  | some nameAst =>
    match typeOf nameAst, getF nameAst "name" with
    | some "XJSIdentifier", some (Node.str s) =>
      match Node.getIn n [Key.fld "openingElement", Key.fld "attributes"],
            getF n "children" with
      | some (Node.arr attrs), some (Node.arr cs) => some (nameAst, s, attrs, cs)
      | _, _ => none
    | _, _ => none
  | none => none

/-- An attribute whose name is on the allow list for component `s`. -/
def goodAttr (s : String) (a : Node) : Bool :=
  match attributeName a with
  | some nm => (allowedAttributesByComponentName s).contains nm
  | none => false

/-- Messages with no hidden attribute, no designation and no expression
container: string literals, empty expressions, and plain nonempty-named
elements all of whose attributes are allow-listed, recursively. -/
def goodF : Nat → Node → Bool
  | 0, _ => false
  | fuel + 1, n =>
    match typeOf n with
    | some "Literal" => true
    | some "XJSEmptyExpression" => true
    | some "XJSElement" =>
      match goodShape n with
      | some (_, s, attrs, cs) =>
        (!(s == "")) && attrs.all (goodAttr s) && cs.all (goodF fuel)
      | none => false
    | _ => false

theorem goodShape_spec (n : Node) (nameAst : Node) (s : String) (attrs cs : List Node)
    (h : goodShape n = some (nameAst, s, attrs, cs)) :
    Node.getIn n [Key.fld "openingElement", Key.fld "name"] = some nameAst ∧
    typeOf nameAst = some "XJSIdentifier" ∧
    getF nameAst "name" = some (Node.str s) ∧
    Node.getIn n [Key.fld "openingElement", Key.fld "attributes"] =
      some (Node.arr attrs) ∧
    getF n "children" = some (Node.arr cs) := by
  unfold goodShape at h
  split at h
  · split at h
    · split at h
      · rename_i x4 c hname x3 x2 s0 htype hgname x1 x0 attrs0 cs0 hattrs hch
        simp only [Option.some.injEq, Prod.mk.injEq] at h
        obtain ⟨rfl, rfl, rfl, rfl⟩ := h
        exact ⟨hname, htype, hgname, hattrs, hch⟩
      · simp at h
    · simp at h
  · simp at h

theorem generate_xjsident (nameAst : Node) (s : String)
    (ht : typeOf nameAst = some "XJSIdentifier")
    (hn : getF nameAst "name" = some (Node.str s)) :
    generate nameAst = s := by
  unfold generate
  have hpos := sizeN_pos nameAst
  cases hsz : sizeN nameAst with
  | zero => omega
  | succ k =>
    unfold generateF
    rw [ht, hn]
    rfl

theorem designation_not_allowed (cn : String) :
    "i18n-designation" ∉ allowedAttributesByComponentName cn := by
  unfold allowedAttributesByComponentName
  split <;> decide

theorem mapME_id {α : Type} (f : α → Except JsError α) :
    ∀ l : List α, (∀ a ∈ l, f a = .ok a) → mapME f l = .ok l := by
  intro l
  induction l with
  | nil => intro _; rfl
  | cons a rest ih =>
    intro h
    have ha := h a (List.mem_cons_self _ _)
    have hr := ih (fun x hx => h x (List.mem_cons_of_mem _ hx))
    simp [mapME, ha, hr, bind, Except.bind, pure, Except.pure]

theorem filterME_true {α : Type} (p : α → Except JsError Bool) :
    ∀ l : List α, (∀ a ∈ l, p a = .ok true) → filterME p l = .ok l := by
  intro l
  induction l with
  | nil => intro _; rfl
  | cons a rest ih =>
    intro h
    have ha := h a (List.mem_cons_self _ _)
    have hr := ih (fun x hx => h x (List.mem_cons_of_mem _ hx))
    simp [filterME, ha, hr, bind, Except.bind, pure, Except.pure]

theorem filterME_false {α : Type} (p : α → Except JsError Bool) :
    ∀ l : List α, (∀ a ∈ l, p a = .ok false) → filterME p l = .ok [] := by
  intro l
  induction l with
  | nil => intro _; rfl
  | cons a rest ih =>
    intro h
    have ha := h a (List.mem_cons_self _ _)
    have hr := ih (fun x hx => h x (List.mem_cons_of_mem _ hx))
    simp [filterME, ha, hr, bind, Except.bind, pure, Except.pure]

theorem anyME_false {α : Type} (p : α → Except JsError Bool) :
    ∀ l : List α, (∀ a ∈ l, p a = .ok false) → anyME p l = .ok false := by
  intro l
  induction l with
  | nil => intro _; rfl
  | cons a rest ih =>
    intro h
    have ha := h a (List.mem_cons_self _ _)
    have hr := ih (fun x hx => h x (List.mem_cons_of_mem _ hx))
    simp [anyME, ha, hr, bind, Except.bind, pure, Except.pure]

theorem mapME_nil_flatten {α : Type} (f : α → Except JsError (List (String × Node))) :
    ∀ l : List α, (∀ a ∈ l, f a = .ok []) →
    ∃ ls, mapME f l = .ok ls ∧ ls.flatten = ([] : List (String × Node)) := by
  intro l
  induction l with
  | nil => intro _; exact ⟨[], rfl, rfl⟩
  | cons a rest ih =>
    intro h
    have ha := h a (List.mem_cons_self _ _)
    obtain ⟨ls, hls, hfl⟩ := ih (fun x hx => h x (List.mem_cons_of_mem _ hx))
    refine ⟨[] :: ls, ?_, by simp [hfl]⟩
    simp [mapME, ha, hls, bind, Except.bind, pure, Except.pure]

theorem getIn_two {n v : Node} {a b : String}
    (h : Node.getIn n [Key.fld a, Key.fld b] = some v) :
    ∃ m, getF n a = some m ∧ getF m b = some v := by
  simp only [Node.getIn] at h
  cases hg : Node.get n (Key.fld a) with
  | none => rw [hg] at h; simp at h
  | some m =>
    rw [hg] at h
    refine ⟨m, hg, ?_⟩
    cases hg2 : Node.get m (Key.fld b) with
    | none => simp [Node.getIn, hg2] at h
    | some w =>
      simp only [Node.getIn, hg2] at h
      exact hg2.trans h

theorem good_attributes {n nameAst : Node} {s : String} {attrs cs : List Node}
    (hsh : goodShape n = some (nameAst, s, attrs, cs)) :
    attributes n = attrs := by
  obtain ⟨_, _, _, hattrs, _⟩ := goodShape_spec n nameAst s attrs cs hsh
  obtain ⟨oe, hoe, hat⟩ := getIn_two hattrs
  simp [attributes, getList, getD, hoe, hat]

theorem good_componentNameAst {n nameAst : Node} {s : String} {attrs cs : List Node}
    (hsh : goodShape n = some (nameAst, s, attrs, cs)) :
    componentNameAst n = .ok nameAst := by
  obtain ⟨hname, htype, _, _, _⟩ := goodShape_spec n nameAst s attrs cs hsh
  unfold componentNameAst
  simp only [hname]
  rw [htype]
  rfl

theorem good_componentName {n nameAst : Node} {s : String} {attrs cs : List Node}
    (hsh : goodShape n = some (nameAst, s, attrs, cs)) :
    componentName n = .ok s := by
  obtain ⟨_, htype, hgname, _, _⟩ := goodShape_spec n nameAst s attrs cs hsh
  unfold componentName
  rw [good_componentNameAst hsh]
  simp [Except.map, generate_xjsident nameAst s htype hgname]

theorem good_attributeWithName_none {n nameAst : Node} {s : String}
    {attrs cs : List Node}
    (hsh : goodShape n = some (nameAst, s, attrs, cs))
    (hall : ∀ a ∈ attrs, goodAttr s a = true) :
    attributeWithName n "i18n-designation" = none := by
  unfold attributeWithName
  rw [good_attributes hsh]
  have hfil : attrs.filter (fun a => attributeName a == some "i18n-designation") = [] := by
    rw [List.filter_eq_nil_iff]
    intro a ha
    have hga := hall a ha
    unfold goodAttr at hga
    cases han : attributeName a with
    | none => rw [han] at hga; simp at hga
    | some nm =>
      rw [han] at hga
      have hmem : nm ∈ allowedAttributesByComponentName s := by
        simpa using hga
      have hne : nm ≠ "i18n-designation" := by
        intro he
        exact designation_not_allowed s (he ▸ hmem)
      simp [han, hne]
  rw [hfil]

theorem good_componentDesignation {n nameAst : Node} {s : String}
    {attrs cs : List Node}
    (hsh : goodShape n = some (nameAst, s, attrs, cs))
    (hall : ∀ a ∈ attrs, goodAttr s a = true) :
    componentDesignation n = .ok none := by
  obtain ⟨hname, htype, _, _, _⟩ := goodShape_spec n nameAst s attrs cs hsh
  unfold componentDesignation
  simp only [hname]
  rw [htype, good_attributeWithName_none hsh hall]
  rfl

theorem good_attributeIsSafe {n nameAst : Node} {s : String} {attrs cs : List Node}
    (hsh : goodShape n = some (nameAst, s, attrs, cs)) (hs : s ≠ "")
    (hall : ∀ a ∈ attrs, goodAttr s a = true) :
    ∀ a ∈ attrs, attributeIsSafe s a = .ok true := by
  intro a ha
  have hga := hall a ha
  unfold goodAttr at hga
  unfold attributeIsSafe
  rw [if_neg hs]
  cases han : attributeName a with
  | none =>
    simp only [han] at hga
    exact absurd hga (by decide)
  | some nm =>
    simp only [han] at hga
    simp only [han]
    simp
    simpa using hga

theorem good_withSafeAttributesOnly {n nameAst : Node} {s : String}
    {attrs cs : List Node}
    (hsh : goodShape n = some (nameAst, s, attrs, cs)) (hs : s ≠ "")
    (hall : ∀ a ∈ attrs, goodAttr s a = true) :
    withSafeAttributesOnly n = .ok n := by
  obtain ⟨_, _, _, hattrs, _⟩ := goodShape_spec n nameAst s attrs cs hsh
  unfold withSafeAttributesOnly
  rw [good_componentName hsh]
  simp only [bind, Except.bind]
  rw [good_attributes hsh]
  rw [filterME_true _ attrs (good_attributeIsSafe hsh hs hall)]
  have hsa : setAttributes n attrs = n := by
    unfold setAttributes
    rw [hattrs]
    exact setIn_self _ n (Node.arr attrs) hattrs
  simp [hsa, pure, Except.pure]

theorem good_hasUnsafeAttributes {n nameAst : Node} {s : String}
    {attrs cs : List Node}
    (hsh : goodShape n = some (nameAst, s, attrs, cs)) (hs : s ≠ "")
    (hall : ∀ a ∈ attrs, goodAttr s a = true) :
    hasUnsafeAttributes n = .ok false := by
  unfold hasUnsafeAttributes
  rw [good_componentName hsh]
  simp only [bind, Except.bind]
  rw [good_attributes hsh]
  apply anyME_false
  intro a ha
  rw [good_attributeIsSafe hsh hs hall a ha]
  rfl

theorem good_rewriteDesignation {n nameAst : Node} {s : String}
    {attrs cs : List Node}
    (hsh : goodShape n = some (nameAst, s, attrs, cs)) (hs : s ≠ "")
    (hall : ∀ a ∈ attrs, goodAttr s a = true) :
    rewriteDesignationToNamespaceSyntax n = .ok n := by
  unfold rewriteDesignationToNamespaceSyntax
  rw [good_componentName hsh]
  simp only [bind, Except.bind]
  rw [good_componentDesignation hsh hall]
  rfl

theorem good_sanitizeCore (recur : Node → Except JsError Node)
    {n nameAst : Node} {s : String} {attrs cs : List Node}
    (hsh : goodShape n = some (nameAst, s, attrs, cs)) (hs : s ≠ "")
    (hall : ∀ a ∈ attrs, goodAttr s a = true)
    (hrec : ∀ c ∈ cs, recur c = .ok c) :
    sanitizeJsxElementCore recur n = .ok n := by
  obtain ⟨_, _, _, _, hch⟩ := goodShape_spec n nameAst s attrs cs hsh
  unfold sanitizeJsxElementCore
  rw [good_rewriteDesignation hsh hs hall]
  simp only [bind, Except.bind]
  rw [good_withSafeAttributesOnly hsh hs hall]
  simp only [hch]
  rw [mapME_id recur cs hrec]
  simp only [bind, Except.bind, pure, Except.pure]
  rw [set_get_self hch]

theorem good_reconstituteCore (recur : Node → Except JsError Node)
    {n nameAst : Node} {s : String} {attrs cs : List Node}
    (hsh : goodShape n = some (nameAst, s, attrs, cs)) (hs : s ≠ "")
    (hall : ∀ a ∈ attrs, goodAttr s a = true)
    (hrec : ∀ c ∈ cs, recur c = .ok c) :
    reconstituteJsxElementCore recur n [] = .ok n := by
  obtain ⟨_, _, _, _, hch⟩ := goodShape_spec n nameAst s attrs cs hsh
  unfold reconstituteJsxElementCore
  rw [good_hasUnsafeAttributes hsh hs hall]
  simp only [bind, Except.bind, Bool.false_eq_true, if_false]
  rw [good_componentDesignation hsh hall]
  simp only [pure, Except.pure, hch]
  rw [mapME_id recur cs hrec]
  simp only [bind, Except.bind, pure, Except.pure]
  rw [set_get_self hch]

theorem good_defsCore (recur : Node → Except JsError (List (String × Node)))
    {n nameAst : Node} {s : String} {attrs cs : List Node}
    (hsh : goodShape n = some (nameAst, s, attrs, cs)) (hs : s ≠ "")
    (hall : ∀ a ∈ attrs, goodAttr s a = true)
    (hrec : ∀ c ∈ cs, recur c = .ok []) :
    namedExpressionDefinitionsInJsxElementCore recur n = .ok [] := by
  obtain ⟨_, _, _, _, hch⟩ := goodShape_spec n nameAst s attrs cs hsh
  unfold namedExpressionDefinitionsInJsxElementCore
  rw [good_attributes hsh]
  have hfil : filterME
      (fun attrib => do pure (!(← attributeIsSafe (← componentName n) attrib)))
      attrs = .ok [] := by
    apply filterME_false
    intro a ha
    rw [show componentName n = .ok s from good_componentName hsh]
    simp only [bind, Except.bind]
    rw [good_attributeIsSafe hsh hs hall a ha]
    rfl
  rw [hfil]
  simp only [bind, Except.bind, List.length_nil, if_pos rfl, pure, Except.pure]
  have hcl : childrenList n = cs := by
    unfold childrenList getList
    rw [hch]
  rw [hcl]
  obtain ⟨ls, hls, hfl⟩ := mapME_nil_flatten recur cs hrec
  rw [hls]
  simp [hfl, pure, Except.pure]

theorem goodF_cases (fuel : Nat) (n : Node) (h : goodF (fuel+1) n = true) :
    typeOf n = some "Literal" ∨ typeOf n = some "XJSEmptyExpression" ∨
    (typeOf n = some "XJSElement" ∧ ∃ nameAst s attrs cs,
      goodShape n = some (nameAst, s, attrs, cs) ∧ s ≠ "" ∧
      (∀ a ∈ attrs, goodAttr s a = true) ∧ (∀ c ∈ cs, goodF fuel c = true)) := by
  unfold goodF at h
  split at h
  · rename_i ht
    exact Or.inl ht
  · rename_i ht
    exact Or.inr (Or.inl ht)
  · rename_i ht
    refine Or.inr (Or.inr ⟨ht, ?_⟩)
    split at h
    · rename_i na s attrs cs hsh
      rw [Bool.and_assoc, Bool.and_eq_true, Bool.and_eq_true] at h
      obtain ⟨h1, h2, h3⟩ := h
      refine ⟨na, s, attrs, cs, hsh, ?_, ?_, ?_⟩
      · intro he
        rw [he] at h1
        exact absurd h1 (by decide)
      · intro a ha
        exact List.all_eq_true.mp h2 a ha
      · intro c hc
        exact List.all_eq_true.mp h3 c hc
    · exact absurd h (by decide)
  · exact absurd h (by decide)

theorem good_sanitizeF (pf : String → Node) :
    ∀ fuel n, goodF fuel n = true → sanitizeF pf fuel n = .ok n := by
  intro fuel
  induction fuel with
  | zero => intro n h; exact absurd h (by simp [goodF])
  | succ f ih =>
    intro n h
    rcases goodF_cases f n h with ht | ht | ⟨ht, nameAst, s, attrs, cs, hsh, hs, hall, hcs⟩
    · unfold sanitizeF
      rw [ht]
      rfl
    · unfold sanitizeF
      rw [ht]
      rfl
    · unfold sanitizeF
      rw [ht]
      exact good_sanitizeCore (sanitizeF pf f) hsh hs hall
        (fun c hc => ih c (hcs c hc))

theorem good_defsAuxF :
    ∀ fuel n, goodF fuel n = true → namedExpressionDefinitionsAuxF fuel n = .ok [] := by
  intro fuel
  induction fuel with
  | zero => intro n h; exact absurd h (by simp [goodF])
  | succ f ih =>
    intro n h
    rcases goodF_cases f n h with ht | ht | ⟨ht, nameAst, s, attrs, cs, hsh, hs, hall, hcs⟩
    · unfold namedExpressionDefinitionsAuxF
      rw [ht]
      rfl
    · unfold namedExpressionDefinitionsAuxF
      rw [ht]
      rfl
    · unfold namedExpressionDefinitionsAuxF
      rw [ht]
      exact good_defsCore (namedExpressionDefinitionsAuxF f) hsh hs hall
        (fun c hc => ih c (hcs c hc))

theorem good_reconstituteAuxF :
    ∀ fuel n, goodF fuel n = true → reconstituteAuxF fuel n [] = .ok n := by
  intro fuel
  induction fuel with
  | zero => intro n h; exact absurd h (by simp [goodF])
  | succ f ih =>
    intro n h
    rcases goodF_cases f n h with ht | ht | ⟨ht, nameAst, s, attrs, cs, hsh, hs, hall, hcs⟩
    · unfold reconstituteAuxF
      rw [ht]
      rfl
    · unfold reconstituteAuxF
      rw [ht]
      rfl
    · unfold reconstituteAuxF
      rw [ht]
      exact good_reconstituteCore (fun c => reconstituteAuxF f c []) hsh hs hall
        (fun c hc => ih c (hcs c hc))

/-- A message satisfying the claim hypotheses but not the round trip: a
designated element (`<a:foo>`) with NO hidden attributes at all. -/
def msgC1 : Node := mkI18NElem [mkElem (mkNSName "a" "foo") [] [mkLit "x"]]

/-- A plain element message for the round-trip instantiation. -/
def mGood : Node := mkI18NElem [mkLit "Hello"]

/-- C1 (amended): on messages with no designation, no hidden or non-allow-listed
attribute and no expression container — string-literal and empty-expression
leaves and plain nonempty-named elements throughout — `sanitize` is the
identity, `reconstitute` against the message's own (empty) definition map is
the identity, and hence the sanitize-then-reconstitute round trip reproduces
the message's printed form exactly. -/
theorem C1_roundTrip (pf : String → Node) (m : Node)
    (h : goodF (sizeN m) m = true) :
    sanitize pf m = Except.ok m ∧
    reconstitute m m = Except.ok m ∧
    ((do pure (generate (← reconstitute (← sanitize pf m) m))) :
      Except JsError String) = Except.ok (generate m) := by
  have hsan : sanitize pf m = Except.ok m := good_sanitizeF pf (sizeN m) m h
  have hdefs : namedExpressionDefinitions m = Except.ok [] := by
    unfold namedExpressionDefinitions namedExpressionDefinitionsAux
    rw [good_defsAuxF (sizeN m) m h]
    simp [bind, Except.bind, duplicatedValues, pure, Except.pure]
  have hrec : reconstitute m m = Except.ok m := by
    unfold reconstitute
    rw [hdefs]
    simp only [bind, Except.bind]
    exact good_reconstituteAuxF (sizeN m) m h
  refine ⟨hsan, hrec, ?_⟩
  rw [hsan]
  simp only [bind, Except.bind]
  rw [hrec]
  rfl

/-- C1 counterexample: `msgC1` has no expression container anywhere and every
attribute list in it is empty (so certainly no hidden attribute), and
sanitize leaves it untouched; yet reconstituting the sanitized message
against the original fails — the designation `foo` was never recorded in the
definition map because the element has no hidden attributes. -/
theorem C1_counterexample :
    ((msgC1 :: (allKeypathsInAst msgC1).filterMap (fun kp => Node.getIn msgC1 kp)).all
      (fun n => (attributes n == []) &&
        !(typeOf n == some "XJSExpressionContainer"))) = true ∧
    sanitize pfNull msgC1 = Except.ok msgC1 ∧
    ((do reconstitute (← sanitize pfNull msgC1) msgC1) : Except JsError Node) =
      Except.error (InputError
        ("Translation contains designation \x27foo\x27, which is not in the original.")) := by
  refine ⟨by decide, by decide, by decide⟩

/-- Concrete instantiation of the round trip on `mGood`. -/
theorem C1_roundTrip_witness :
    goodF (sizeN mGood) mGood = true ∧ sanitize pfNull mGood = Except.ok mGood := by
  refine ⟨by decide, ?_⟩
  exact (C1_roundTrip pfNull mGood (by decide)).1
